import Mathlib

/-!
Verification of the street-grid distance toolkit.

The development shallowly embeds the Python sources:
  * `src/utils/create_graph.py`    : `create_graph`
  * `src/distance_analysis.py`     : `build_adjacency_list`, `bfs_shortest_distances`,
                                     `generate_random_point_pairs`,
                                     `calculate_distances_to_all_vertices`
  * `src/bfs_distance_calculator.py` duplicates those functions verbatim
    (its `generate_random_point_pairs` merely lacks the seed parameter);
    one embedding covers both files.

Modelling conventions:
  * Python integers are `ℤ` where a sign can occur (vertex indices, grid
    dimensions), `ℕ` for edge weights and counts.
  * `float('inf')` distances live in `ℕ∞` (`WithTop ℕ`), `⊤` = infinity.
  * Python list indexing (including negative-index wrapping and the
    `IndexError` on out-of-range access) is modelled by `pyIndex`/`pyGet`/
    `pySet`.
  * Exceptions are `Except PyErr`; the unbounded `while` loops take an
    explicit fuel argument, and exhausting every fuel models divergence
    (`PyErr.outOfFuel`).
  * `random.randint(0, m)` after `random.seed(seed)` is a deterministic
    function of the seed; the seeded generator is abstracted as a stream
    `rng : ℕ → ℕ` of raw draws, the i-th call to `randint(0, m)` returning
    `rng i % (m+1)` (out-of-order bound `m < 0` raises `ValueError`, as in
    Python).
-/

/-- Kinds of Python failures the embedded code can produce.  `outOfFuel`
marks that the given fuel did not suffice for a `while` loop; a proof that
every fuel yields `outOfFuel` models genuine divergence. -/
inductive PyErr where
  | indexError : PyErr
  | valueError : PyErr
  | outOfFuel : PyErr
deriving DecidableEq

/-- Python sequence-index resolution for a sequence of length `len`:
`0 ≤ i < len` is used as is, `-len ≤ i < 0` wraps to `i + len`, anything
else is an `IndexError` (`none`). -/
def pyIndex (len : ℕ) (i : ℤ) : Option ℕ :=
  if 0 ≤ i ∧ i < (len : ℤ) then some i.toNat
  else if 0 ≤ i + (len : ℤ) ∧ i < 0 then some (i + (len : ℤ)).toNat
  else none

/-- Python `l[i]` (read). -/
def pyGet {α : Type} (l : List α) (i : ℤ) : Except PyErr α :=
  match pyIndex l.length i with
  | some k =>
    if h : k < l.length then .ok (l.get ⟨k, h⟩) else .error .indexError
  | none => .error .indexError

/-- Python `l[i] = x` (write). -/
def pySet {α : Type} (l : List α) (i : ℤ) (x : α) : Except PyErr (List α) :=
  match pyIndex l.length i with
  | some k => .ok (l.set k x)
  | none => .error .indexError

/-- The doubly nested loop `for r in range(n): for c in range(m): yield f r c`
used throughout `create_graph.py` (row-major enumeration). -/
def rowMajor {α : Type} (n m : ℕ) (f : ℕ → ℕ → α) : List α :=
  (List.range n).flatMap fun r => (List.range m).map (f r)

/-- `src/utils/create_graph.py` lines 22-27: the horizontal edges,
`(row*width+col, row*width+col+1, horizontal_weight)` for
`row in range(height)`, `col in range(width-1)`.
`Int.toNat` clamps a non-positive bound to the empty range, as Python
`range` does. -/
def horizontalEdges (width height : ℤ) (hw : ℕ) : List (ℤ × ℤ × ℕ) :=
  rowMajor height.toNat (width - 1).toNat
    (fun r c => ((r : ℤ) * width + (c : ℤ), (r : ℤ) * width + ((c : ℤ) + 1), hw))

/-- `src/utils/create_graph.py` lines 29-34: the vertical edges,
`(row*width+col, (row+1)*width+col, vertical_weight)` for
`row in range(height-1)`, `col in range(width)`. -/
def verticalEdges (width height : ℤ) (vw : ℕ) : List (ℤ × ℤ × ℕ) :=
  rowMajor (height - 1).toNat width.toNat
    (fun r c => ((r : ℤ) * width + (c : ℤ), ((r : ℤ) + 1) * width + (c : ℤ), vw))

/-- `src/utils/create_graph.py` lines 9-14: the vertex list
`(vertex_index, row, col)` in row-major order. -/
def gridVertices (width height : ℤ) : List (ℤ × ℤ × ℤ) :=
  rowMajor height.toNat width.toNat
    (fun r c => ((r : ℤ) * width + (c : ℤ), (r : ℤ), (c : ℤ)))

/-- `src/utils/create_graph.py`, `create_graph(width, height,
horizontal_weight, vertical_weight)`: returns `(edges, vertices)`, the
edge list being the horizontal edges followed by the vertical edges.
The function performs no input validation and cannot raise. -/
def create_graph (width height : ℤ) (horizontal_weight vertical_weight : ℕ) :
    List (ℤ × ℤ × ℕ) × List (ℤ × ℤ × ℤ) :=
  (horizontalEdges width height horizontal_weight ++
    verticalEdges width height vertical_weight,
   gridVertices width height)

/-- `src/distance_analysis.py` lines 13-29, `build_adjacency_list(edges)`:
a `defaultdict(list)` filled by iterating the edges, appending `(end, w)`
to `adj[start]` and then `(start, w)` to `adj[end]`.  Modelled as the
lookup function: `adj v` lists, in edge order, the entries the Python dict
holds at key `v`; a key never written yields `[]`, exactly the
`defaultdict` behaviour. -/
def build_adjacency_list (edges : List (ℤ × ℤ × ℕ)) : ℤ → List (ℤ × ℕ) :=
  fun v =>
    edges.flatMap fun e =>
      (if e.1 = v then [(e.2.1, e.2.2)] else []) ++
        (if e.2.1 = v then [(e.1, e.2.2)] else [])

/-- The body of the inner loop of `bfs_shortest_distances`
(`src/distance_analysis.py` lines 50-56): for each `(neighbor, weight)` in
`adj_list[current]`, read `distances[current]`, compare
`distances[current] + weight` with `distances[neighbor]`, and on
improvement write the new distance and append `neighbor` to the queue. -/
def relaxNeighbors (cur : ℤ) :
    List (ℤ × ℕ) → List ℕ∞ → List ℤ → Except PyErr (List ℕ∞ × List ℤ)
  | [], dist, queue => .ok (dist, queue)
  | (v, w) :: rest, dist, queue => do
    let dc ← pyGet dist cur
    let nd := dc + (w : ℕ∞)
    let dn ← pyGet dist v
    if nd < dn then do
      let dist' ← pySet dist v nd
      relaxNeighbors cur rest dist' (queue ++ [v])
    else
      relaxNeighbors cur rest dist queue

/-- The `while queue:` loop of `bfs_shortest_distances`
(`src/distance_analysis.py` lines 45-56): pop the front of the FIFO queue
and relax its adjacency entries.  `fuel` bounds the number of iterations;
the loop itself checks only queue emptiness. -/
def bfsLoop (adj : ℤ → List (ℤ × ℕ)) :
    ℕ → List ℕ∞ → List ℤ → Except PyErr (List ℕ∞)
  | _, dist, [] => .ok dist
  | 0, _, _ :: _ => .error .outOfFuel
  | fuel + 1, dist, cur :: rest => do
    let st ← relaxNeighbors cur (adj cur) dist rest
    bfsLoop adj fuel st.1 st.2

/-- `src/distance_analysis.py` lines 31-58, `bfs_shortest_distances
(adj_list, start_vertex, total_vertices)`: distances start at
`[inf] * total_vertices`, `distances[start_vertex] = 0` (Python indexing:
an out-of-range start raises `IndexError` here, before the search loop; a
negative start in `[-total, 0)` wraps), then the queue-relaxation loop
runs. -/
def bfs_shortest_distances (adj : ℤ → List (ℤ × ℕ)) (start_vertex : ℤ)
    (total_vertices : ℕ) (fuel : ℕ) : Except PyErr (List ℕ∞) := do
  let d0 := List.replicate total_vertices (⊤ : ℕ∞)
  let d1 ← pySet d0 start_vertex 0
  bfsLoop adj fuel d1 [start_vertex]

/-- `random.randint(0, hi)` drawn from the abstract seeded stream `rng` at
position `pos`: Python raises `ValueError` when the range `[0, hi]` is
empty (`hi < 0`), otherwise returns a value in `[0, hi]`. -/
def randint0 (rng : ℕ → ℕ) (pos : ℕ) (hi : ℤ) : Except PyErr ℕ :=
  if hi < 0 then .error .valueError
  else .ok (rng pos % (hi.toNat + 1))

/-- The end-vertex draw of `generate_random_point_pairs`
(`src/distance_analysis.py` lines 81-85): draw `end_vertex`, then
`while end_vertex == start_vertex:` redraw.  Returns the accepted value
and the next stream position; `fuel` bounds the redraw count. -/
def drawEndLoop (rng : ℕ → ℕ) (hi : ℤ) (start : ℕ) :
    ℕ → ℕ → Except PyErr (ℕ × ℕ)
  | _, 0 => .error .outOfFuel
  | pos, fuel + 1 => do
    let e ← randint0 rng pos hi
    if e = start then drawEndLoop rng hi start (pos + 1) fuel
    else .ok (e, pos + 1)

/-- The `for i in range(n)` loop of `generate_random_point_pairs`
(`src/distance_analysis.py` lines 77-87): per pair, draw the start vertex,
then the end vertex with the redraw loop, and append `(start, end)`. -/
def genPairsAux (rng : ℕ → ℕ) (total : ℤ) (fuel : ℕ) :
    ℕ → ℕ → Except PyErr (List (ℕ × ℕ))
  | 0, _ => .ok []
  | n + 1, pos => do
    let s ← randint0 rng pos (total - 1)
    let ep ← drawEndLoop rng (total - 1) s (pos + 1) fuel
    let rest ← genPairsAux rng total fuel n ep.2
    pure ((s, ep.1) :: rest)

/-- `src/distance_analysis.py` lines 60-88, `generate_random_point_pairs
(n, total_vertices, seed)`: after seeding, every draw is
`randint(0, total_vertices - 1)`.  `rng` is the seeded draw stream (a
fixed seed determines it completely); the seedless variant in
`src/bfs_distance_calculator.py` is the same function on the ambient
stream. -/
def generate_random_point_pairs (n : ℕ) (total_vertices : ℤ) (rng : ℕ → ℕ)
    (fuel : ℕ) : Except PyErr (List (ℕ × ℕ)) :=
  genPairsAux rng total_vertices fuel n 0

/-- The per-pair loop of `calculate_distances_to_all_vertices`
(`src/distance_analysis.py` lines 106-117): for each pair, run the search
from the start vertex and then from the end vertex. -/
def pairColumns (adj : ℤ → List (ℤ × ℕ)) (total fuel : ℕ) :
    List (ℤ × ℤ) → Except PyErr (List (List ℕ∞ × List ℕ∞))
  | [] => .ok []
  | p :: rest => do
    let ds ← bfs_shortest_distances adj p.1 total fuel
    let de ← bfs_shortest_distances adj p.2 total fuel
    let others ← pairColumns adj total fuel rest
    pure ((ds, de) :: others)

/-- `src/distance_analysis.py` lines 90-122,
`calculate_distances_to_all_vertices(random_pairs, edges, total_vertices)`:
builds the adjacency list, runs the two searches per pair, and fills
`result[i][j] = (distances_from_start_j[i], distances_from_end_j[i])`.
Python preallocates the `total × pairs` matrix and writes column `j` for
all `i` while processing pair `j`; on a successful run each distance list
has length `total_vertices`, so the filled matrix is exactly the one
assembled here row by row. -/
def calculate_distances_to_all_vertices (random_pairs : List (ℤ × ℤ))
    (edges : List (ℤ × ℤ × ℕ)) (total_vertices : ℕ) (fuel : ℕ) :
    Except PyErr (List (List (ℕ∞ × ℕ∞))) := do
  let adj := build_adjacency_list edges
  let cols ← pairColumns adj total_vertices fuel random_pairs
  pure ((List.range total_vertices).map fun i =>
    cols.map fun c => (c.1.getD i ⊤, c.2.getD i ⊤))

/-- Cost-annotated walks of the adjacency structure: `WalkCost adj u v c`
holds when some walk from `u` to `v` follows adjacency entries and its
edge weights sum to `c`.  Since every edge weight is non-negative, the
minimum walk cost coincides with the minimum cost over (simple) paths. -/
inductive WalkCost (adj : ℤ → List (ℤ × ℕ)) : ℤ → ℤ → ℕ → Prop where
  | refl (v : ℤ) : WalkCost adj v v 0
  | step {u v : ℤ} {c : ℕ} {x : ℤ} {w : ℕ} :
      WalkCost adj u v c → (x, w) ∈ adj v → WalkCost adj u x (c + w)

/-- The set of (extended-natural) costs of walks from `s` to `v`;
`sInf` of this set is the shortest distance, `⊤` when `v` is
unreachable. -/
def distSet (adj : ℤ → List (ℤ × ℕ)) (s v : ℤ) : Set ℕ∞ :=
  {x | ∃ c : ℕ, WalkCost adj s v c ∧ x = (c : ℕ∞)}

/-- Walks annotated with the list of visited vertices, in order (both
endpoints included).  `WalkVia adj u v l c` is `WalkCost adj u v c` with
the itinerary `l` made explicit, so that simple paths (`l.Nodup`) can be
singled out. -/
inductive WalkVia (adj : ℤ → List (ℤ × ℕ)) : ℤ → ℤ → List ℤ → ℕ → Prop where
  | refl (v : ℤ) : WalkVia adj v v [v] 0
  | step {u v : ℤ} {l : List ℤ} {c : ℕ} {x : ℤ} {w : ℕ} :
      WalkVia adj u v l c → (x, w) ∈ adj v → WalkVia adj u x (l ++ [x]) (c + w)

/-- Cost of a simple path: a walk that visits no vertex twice. -/
def PathCost (adj : ℤ → List (ℤ × ℕ)) (u v : ℤ) (c : ℕ) : Prop :=
  ∃ l, WalkVia adj u v l c ∧ l.Nodup

/-- The set of (extended-natural) costs of simple paths from `s` to
`v`.  Its least element coincides with that of `distSet` (cycle
removal), so the shortest distance is a least path cost. -/
def pathDistSet (adj : ℤ → List (ℤ × ℕ)) (s v : ℤ) : Set ℕ∞ :=
  {x | ∃ c : ℕ, PathCost adj s v c ∧ x = (c : ℕ∞)}

/-- The relaxation loop body with all Python index bookkeeping resolved;
`relaxNeighbors` agrees with it whenever `cur` and all neighbor indices are
in range (lemma `relaxNeighbors_eq_relaxPure`). -/
def relaxPure (cur : ℤ) : List (ℤ × ℕ) → List ℕ∞ → List ℤ → List ℕ∞ × List ℤ
  | [], dist, queue => (dist, queue)
  | (v, w) :: rest, dist, queue =>
    if dist.getD cur.toNat ⊤ + (w : ℕ∞) < dist.getD v.toNat ⊤ then
      relaxPure cur rest (dist.set v.toNat (dist.getD cur.toNat ⊤ + (w : ℕ∞)))
        (queue ++ [v])
    else relaxPure cur rest dist queue

/-- Strict pointwise decrease of a distance vector: same length, every
entry bounded by the old one, some entry strictly smaller. -/
def DLt (d' d : List ℕ∞) : Prop :=
  d'.length = d.length ∧ (∀ i, d'.getD i ⊤ ≤ d.getD i ⊤) ∧
    ∃ i, d'.getD i ⊤ < d.getD i ⊤

/-- Lexicographic termination measure of the search loop: the distance
vector strictly decreases, or it is unchanged and the queue shrinks. -/
def bfsRel : (List ℕ∞ × List ℤ) → (List ℕ∞ × List ℤ) → Prop :=
  InvImage (Prod.Lex DLt (fun x y : ℕ => x < y)) (fun p => (p.1, p.2.length))

/-- Invariant of the relaxation loop: distances have the right length, the
queue holds valid vertices, the source entry is `0`, every finite entry is
the cost of an actual walk from the source, and every vertex with a
not-yet-relaxed outgoing adjacency entry is on the queue. -/
structure BfsInv (adj : ℤ → List (ℤ × ℕ)) (total : ℕ) (s : ℤ)
    (dist : List ℕ∞) (queue : List ℤ) : Prop where
  len : dist.length = total
  qmem : ∀ q ∈ queue, 0 ≤ q ∧ q < (total : ℤ)
  src : dist.getD s.toNat ⊤ = 0
  sound : ∀ v : ℕ, v < total → dist.getD v ⊤ ≠ ⊤ →
    ∃ c : ℕ, WalkCost adj s (v : ℤ) c ∧ dist.getD v ⊤ = (c : ℕ∞)
  relaxed : ∀ u : ℤ, 0 ≤ u → u < (total : ℤ) → ∀ v w, (v, w) ∈ adj u →
    dist.getD u.toNat ⊤ + (w : ℕ∞) < dist.getD v.toNat ⊤ → u ∈ queue

/-- Postcondition of a successful search from `s` on an adjacency index
with `total` vertices: some fuel suffices (the Python loop terminates),
the result has length `total`, entry `s` is `0`, every reachable vertex
holds the least walk cost from `s`, which is also the least cost over
simple paths (and reachability by walk and by path coincide), and every
unreachable vertex holds infinity. -/
def C1Post (adj : ℤ → List (ℤ × ℕ)) (total : ℕ) (s : ℤ) : Prop :=
  ∃ fuel d, (∀ f, fuel ≤ f → bfs_shortest_distances adj s total f = .ok d) ∧
    d.length = total ∧ d.getD s.toNat ⊤ = 0 ∧
    ∀ v : ℕ, v < total →
      ((∃ c : ℕ, WalkCost adj s (v : ℤ) c) →
        IsLeast (distSet adj s (v : ℤ)) (d.getD v ⊤) ∧
        IsLeast (pathDistSet adj s (v : ℤ)) (d.getD v ⊤)) ∧
      ((¬ ∃ c : ℕ, WalkCost adj s (v : ℤ) c) → d.getD v ⊤ = ⊤) ∧
      ((∃ c : ℕ, PathCost adj s (v : ℤ) c) ↔ ∃ c : ℕ, WalkCost adj s (v : ℤ) c)

/-- The full structural postcondition of `create_graph` for positive
dimensions: `width*height` vertices in row-major order with
`index = row*width + col`, exactly `height*(width-1)` horizontal edges of
weight `horizontal_weight` followed by exactly `(height-1)*width` vertical
edges of weight `vertical_weight`, both blocks enumerated row-major, and
(purity) identical inputs give identical output. -/
def CreateGraphSpec (w h : ℤ) (a b : ℕ) : Prop :=
  (create_graph w h a b).2.length = (w * h).toNat ∧
  (∀ r c : ℕ, r < h.toNat → c < w.toNat →
    (create_graph w h a b).2.getD (r * w.toNat + c) (0, 0, 0) =
      ((r : ℤ) * w + (c : ℤ), (r : ℤ), (c : ℤ))) ∧
  (create_graph w h a b).1 = horizontalEdges w h a ++ verticalEdges w h b ∧
  (horizontalEdges w h a).length = (h * (w - 1)).toNat ∧
  (verticalEdges w h b).length = ((h - 1) * w).toNat ∧
  (∀ e ∈ horizontalEdges w h a, e.2.2 = a) ∧
  (∀ e ∈ verticalEdges w h b, e.2.2 = b) ∧
  (∀ r c : ℕ, r < h.toNat → c < (w - 1).toNat →
    (horizontalEdges w h a).getD (r * (w - 1).toNat + c) (0, 0, 0) =
      ((r : ℤ) * w + (c : ℤ), (r : ℤ) * w + ((c : ℤ) + 1), a)) ∧
  (∀ r c : ℕ, r < (h - 1).toNat → c < w.toNat →
    (verticalEdges w h b).getD (r * w.toNat + c) (0, 0, 0) =
      ((r : ℤ) * w + (c : ℤ), ((r : ℤ) + 1) * w + (c : ℤ), b)) ∧
  create_graph w h a b = create_graph w h a b

/-- The end-vertex draw of the spec's policy (§4.4): draw uniformly from
`[0, bound)`, redraw while the draw equals the start.  Written from the
spec's words, to be compared with the embedded sampler. -/
def policyEndLoop (rng : ℕ → ℕ) (bound : ℤ) (start : ℕ) :
    ℕ → ℕ → Except PyErr (ℕ × ℕ)
  | _, 0 => .error .outOfFuel
  | pos, fuel + 1 =>
    if rng pos % bound.toNat = start then
      policyEndLoop rng bound start (pos + 1) fuel
    else .ok (rng pos % bound.toNat, pos + 1)

/-- The spec's draw-sequence policy (§4.4): per pair, draw the start from
`[0, bound)`, draw the end with the redraw loop, repeat for each pair in
order, consuming the seeded stream left to right.  Written from the
spec's words, to be compared with the embedded sampler. -/
def samplerDrawPolicy (rng : ℕ → ℕ) (bound : ℤ) (fuel : ℕ) :
    ℕ → ℕ → Except PyErr (List (ℕ × ℕ))
  | 0, _ => .ok []
  | n + 1, pos => do
    let ep ← policyEndLoop rng bound (rng pos % bound.toNat) (pos + 1) fuel
    let rest ← samplerDrawPolicy rng bound fuel n ep.2
    pure ((rng pos % bound.toNat, ep.1) :: rest)

/-- Postcondition of the aggregator: some fuel suffices, the matrix has
exactly `total` rows and `pairs.length` columns in input order, and cell
`(i, j)` is the pair of shortest distances (as infima of walk-cost sets)
from pair `j`'s start and end to vertex `i`. -/
def C3Post (pairs : List (ℤ × ℤ)) (edges : List (ℤ × ℤ × ℕ))
    (total : ℕ) : Prop :=
  ∃ fuel m,
    (∀ f, fuel ≤ f →
      calculate_distances_to_all_vertices pairs edges total f = .ok m) ∧
    m.length = total ∧ (∀ row ∈ m, row.length = pairs.length) ∧
    ∀ i j : ℕ, i < total → j < pairs.length →
      (m.getD i []).getD j (⊤, ⊤) =
        (sInf (distSet (build_adjacency_list edges)
          (pairs.getD j (0, 0)).1 (i : ℤ)),
         sInf (distSet (build_adjacency_list edges)
          (pairs.getD j (0, 0)).2 (i : ℤ)))

/-! ### List and Python-primitive lemmas -/

theorem getD_set_self (l : List ℕ∞) (i : ℕ) (x d : ℕ∞) (h : i < l.length) :
    (l.set i x).getD i d = x := by
  rw [List.getD_eq_getElem _ _ (by simpa using h)]
  exact List.getElem_set_self _

theorem getD_set_ne (l : List ℕ∞) (i j : ℕ) (x d : ℕ∞) (h : i ≠ j) :
    (l.set i x).getD j d = l.getD j d := by
  by_cases hj : j < l.length
  · rw [List.getD_eq_getElem _ _ (by simpa using hj), List.getD_eq_getElem _ _ hj]
    exact List.getElem_set_ne h _
  · rw [List.getD_eq_default _ _ (by simpa using not_lt.mp hj),
      List.getD_eq_default _ _ (not_lt.mp hj)]

theorem getD_replicate (n i : ℕ) (x d : ℕ∞) (h : i < n) :
    (List.replicate n x).getD i d = x := by
  rw [List.getD_eq_getElem _ _ (by simpa using h)]
  exact List.getElem_replicate _ _

theorem listExtGetD (s t : List ℕ∞) (hlen : s.length = t.length)
    (h : ∀ j, s.getD j ⊤ = t.getD j ⊤) : s = t := by
  refine List.ext_getElem hlen ?_
  intro n h1 h2
  have := h n
  rwa [List.getD_eq_getElem _ _ h1, List.getD_eq_getElem _ _ h2] at this

theorem pyIndex_nonneg (len : ℕ) (i : ℤ) (h0 : 0 ≤ i) (h1 : i < (len : ℤ)) :
    pyIndex len i = some i.toNat := by
  unfold pyIndex
  rw [if_pos ⟨h0, h1⟩]

theorem pyIndex_neg (len : ℕ) (i : ℤ) (h0 : 0 ≤ i + (len : ℤ)) (h1 : i < 0) :
    pyIndex len i = some (i + (len : ℤ)).toNat := by
  unfold pyIndex
  rw [if_neg (by omega), if_pos ⟨h0, h1⟩]

theorem pyIndex_none (len : ℕ) (i : ℤ) (h : i < -(len : ℤ) ∨ (len : ℤ) ≤ i) :
    pyIndex len i = none := by
  unfold pyIndex
  rw [if_neg (by omega), if_neg (by omega)]

theorem pyGet_ok (l : List ℕ∞) (i : ℤ) (h0 : 0 ≤ i) (h1 : i < (l.length : ℤ)) :
    pyGet l i = .ok (l.getD i.toNat ⊤) := by
  unfold pyGet
  rw [pyIndex_nonneg _ _ h0 h1]
  have h2 : i.toNat < l.length := by omega
  dsimp only
  rw [dif_pos h2, List.getD_eq_getElem _ _ h2]
  rfl

theorem pySet_ok {α : Type} (l : List α) (i : ℤ) (x : α) (h0 : 0 ≤ i)
    (h1 : i < (l.length : ℤ)) : pySet l i x = .ok (l.set i.toNat x) := by
  unfold pySet
  rw [pyIndex_nonneg _ _ h0 h1]

theorem exceptBindOk {α β : Type} (a : α) (f : α → Except PyErr β) :
    (Except.ok a >>= f) = f a := rfl

theorem exceptBindErr {α β : Type} (e : PyErr) (f : α → Except PyErr β) :
    ((Except.error e : Except PyErr α) >>= f) = .error e := rfl

/-! ### The pure shadow of the relaxation loop -/

theorem relaxNeighbors_eq_relaxPure (cur : ℤ) :
    ∀ (nbrs : List (ℤ × ℕ)) (dist : List ℕ∞) (queue : List ℤ),
    0 ≤ cur → cur < (dist.length : ℤ) →
    (∀ p ∈ nbrs, 0 ≤ p.1 ∧ p.1 < (dist.length : ℤ)) →
    relaxNeighbors cur nbrs dist queue = .ok (relaxPure cur nbrs dist queue) := by
  intro nbrs
  induction nbrs with
  | nil => intro dist queue _ _ _; rfl
  | cons p rest ih =>
    intro dist queue h0 h1 hmem
    obtain ⟨v, w⟩ := p
    have hv := hmem (v, w) (by simp)
    rw [relaxNeighbors, relaxPure]
    rw [pyGet_ok dist cur h0 h1, exceptBindOk, pyGet_ok dist v hv.1 hv.2,
      exceptBindOk]
    by_cases hlt : dist.getD cur.toNat ⊤ + (w : ℕ∞) < dist.getD v.toNat ⊤
    · rw [if_pos hlt, if_pos hlt, pySet_ok dist v _ hv.1 hv.2, exceptBindOk]
      exact ih _ _ h0 (by simpa using h1) (by simpa using fun q hq => hmem q (by simp [hq]))
    · rw [if_neg hlt, if_neg hlt]
      exact ih _ _ h0 h1 (fun q hq => hmem q (by simp [hq]))

theorem relaxPure_length (cur : ℤ) :
    ∀ (nbrs : List (ℤ × ℕ)) (dist : List ℕ∞) (queue : List ℤ),
    ((relaxPure cur nbrs dist queue).1).length = dist.length := by
  intro nbrs
  induction nbrs with
  | nil => intro dist queue; rfl
  | cons p rest ih =>
    intro dist queue
    obtain ⟨v, w⟩ := p
    rw [relaxPure]
    by_cases hlt : dist.getD cur.toNat ⊤ + (w : ℕ∞) < dist.getD v.toNat ⊤
    · rw [if_pos hlt, ih]
      exact List.length_set _ _ _
    · rw [if_neg hlt, ih]

theorem relaxPure_le (cur : ℤ) :
    ∀ (nbrs : List (ℤ × ℕ)) (dist : List ℕ∞) (queue : List ℤ) (i : ℕ),
    ((relaxPure cur nbrs dist queue).1).getD i ⊤ ≤ dist.getD i ⊤ := by
  intro nbrs
  induction nbrs with
  | nil => intro dist queue i; exact le_refl _
  | cons p rest ih =>
    intro dist queue i
    obtain ⟨v, w⟩ := p
    rw [relaxPure]
    by_cases hlt : dist.getD cur.toNat ⊤ + (w : ℕ∞) < dist.getD v.toNat ⊤
    · rw [if_pos hlt]
      refine le_trans (ih _ _ i) ?_
      by_cases hiv : v.toNat = i
      · subst hiv
        by_cases hrange : v.toNat < dist.length
        · rw [getD_set_self _ _ _ _ hrange]
          exact le_of_lt hlt
        · rw [List.getD_eq_default _ _ (by simpa [List.length_set] using not_lt.mp hrange)]
          rw [List.getD_eq_default _ _ (not_lt.mp hrange)]
      · rw [getD_set_ne _ _ _ _ _ hiv]
    · rw [if_neg hlt]
      exact ih _ _ i

theorem relaxPure_cur (cur : ℤ) :
    ∀ (nbrs : List (ℤ × ℕ)) (dist : List ℕ∞) (queue : List ℤ),
    ((relaxPure cur nbrs dist queue).1).getD cur.toNat ⊤ = dist.getD cur.toNat ⊤ := by
  intro nbrs
  induction nbrs with
  | nil => intro dist queue; rfl
  | cons p rest ih =>
    intro dist queue
    obtain ⟨v, w⟩ := p
    rw [relaxPure]
    by_cases hlt : dist.getD cur.toNat ⊤ + (w : ℕ∞) < dist.getD v.toNat ⊤
    · rw [if_pos hlt]
      have hne : v.toNat ≠ cur.toNat := by
        intro he
        rw [he] at hlt
        exact absurd hlt (not_lt.mpr le_self_add)
      rw [ih, getD_set_ne _ _ _ _ _ hne]
    · rw [if_neg hlt]
      exact ih _ _

theorem relaxPure_queue (cur : ℤ) :
    ∀ (nbrs : List (ℤ × ℕ)) (dist : List ℕ∞) (queue : List ℤ),
    ∃ ext, (relaxPure cur nbrs dist queue).2 = queue ++ ext ∧
      ∀ x ∈ ext, ∃ w, (x, w) ∈ nbrs := by
  intro nbrs
  induction nbrs with
  | nil =>
    intro dist queue
    exact ⟨[], by simp [relaxPure], by simp⟩
  | cons p rest ih =>
    intro dist queue
    obtain ⟨v, w⟩ := p
    rw [relaxPure]
    by_cases hlt : dist.getD cur.toNat ⊤ + (w : ℕ∞) < dist.getD v.toNat ⊤
    · rw [if_pos hlt]
      obtain ⟨ext, hq, hm⟩ := ih (dist.set v.toNat (dist.getD cur.toNat ⊤ + (w : ℕ∞))) (queue ++ [v])
      refine ⟨v :: ext, by rw [hq]; simp, ?_⟩
      intro x hx
      rcases List.mem_cons.mp hx with h | h
      · exact ⟨w, by simp [h]⟩
      · obtain ⟨w0, hw0⟩ := hm x h
        exact ⟨w0, by simp [hw0]⟩
    · rw [if_neg hlt]
      obtain ⟨ext, hq, hm⟩ := ih dist queue
      refine ⟨ext, hq, ?_⟩
      intro x hx
      obtain ⟨w0, hw0⟩ := hm x hx
      exact ⟨w0, by simp [hw0]⟩

theorem relaxPure_relaxed (cur : ℤ) :
    ∀ (nbrs : List (ℤ × ℕ)) (dist : List ℕ∞) (queue : List ℤ),
    (∀ p ∈ nbrs, 0 ≤ p.1 ∧ p.1 < (dist.length : ℤ)) →
    ∀ p ∈ nbrs,
      ((relaxPure cur nbrs dist queue).1).getD p.1.toNat ⊤ ≤
        ((relaxPure cur nbrs dist queue).1).getD cur.toNat ⊤ + (p.2 : ℕ∞) := by
  intro nbrs
  induction nbrs with
  | nil => intro dist queue _ p hp; exact absurd hp (List.not_mem_nil p)
  | cons q rest ih =>
    intro dist queue hrange p hp
    obtain ⟨v, w⟩ := q
    have hv := hrange (v, w) (by simp)
    have hvlen : v.toNat < dist.length := by omega
    rw [relaxPure]
    by_cases hlt : dist.getD cur.toNat ⊤ + (w : ℕ∞) < dist.getD v.toNat ⊤
    · rw [if_pos hlt]
      have hne : v.toNat ≠ cur.toNat := by
        intro he
        rw [he] at hlt
        exact absurd hlt (not_lt.mpr le_self_add)
      set dist' := dist.set v.toNat (dist.getD cur.toNat ⊤ + (w : ℕ∞)) with hd
      have hlen' : dist'.length = dist.length := List.length_set _ _ _
      have hrange' : ∀ p ∈ rest, 0 ≤ p.1 ∧ p.1 < (dist'.length : ℤ) := by
        intro q hq
        rw [hlen']
        exact hrange q (by simp [hq])
      rcases List.mem_cons.mp hp with hph | hpt
      · -- p is the head (v, w): its entry was just relaxed
        have h1 : ((relaxPure cur rest dist' (queue ++ [v])).1).getD v.toNat ⊤ ≤
            dist.getD cur.toNat ⊤ + (w : ℕ∞) := by
          have := relaxPure_le cur rest dist' (queue ++ [v]) v.toNat
          rwa [getD_set_self _ _ _ _ hvlen] at this
        have h2 : ((relaxPure cur rest dist' (queue ++ [v])).1).getD cur.toNat ⊤ =
            dist.getD cur.toNat ⊤ := by
          rw [relaxPure_cur, getD_set_ne _ _ _ _ _ hne]
        rw [hph]
        dsimp only
        rw [h2]
        exact h1
      · exact ih dist' (queue ++ [v]) hrange' p hpt
    · rw [if_neg hlt]
      rcases List.mem_cons.mp hp with hph | hpt
      · have hge : dist.getD v.toNat ⊤ ≤ dist.getD cur.toNat ⊤ + (w : ℕ∞) := not_lt.mp hlt
        have h1 : ((relaxPure cur rest dist queue).1).getD v.toNat ⊤ ≤
            dist.getD cur.toNat ⊤ + (w : ℕ∞) :=
          le_trans (relaxPure_le cur rest dist queue v.toNat) hge
        have h2 : ((relaxPure cur rest dist queue).1).getD cur.toNat ⊤ =
            dist.getD cur.toNat ⊤ := relaxPure_cur cur rest dist queue
        rw [hph]
        dsimp only
        rw [h2]
        exact h1
      · exact ih dist queue (fun q hq => hrange q (by simp [hq])) p hpt

theorem relaxPure_changed (cur : ℤ) :
    ∀ (nbrs : List (ℤ × ℕ)) (dist : List ℕ∞) (queue : List ℤ) (i : ℕ),
    ((relaxPure cur nbrs dist queue).1).getD i ⊤ ≠ dist.getD i ⊤ →
    ∃ v w, (v, w) ∈ nbrs ∧ v.toNat = i ∧
      ((relaxPure cur nbrs dist queue).1).getD i ⊤ = dist.getD cur.toNat ⊤ + (w : ℕ∞) ∧
      v ∈ (relaxPure cur nbrs dist queue).2 := by
  intro nbrs
  induction nbrs with
  | nil => intro dist queue i h; exact absurd rfl h
  | cons q rest ih =>
    intro dist queue i hchg
    obtain ⟨v, w⟩ := q
    rw [relaxPure] at hchg ⊢
    by_cases hlt : dist.getD cur.toNat ⊤ + (w : ℕ∞) < dist.getD v.toNat ⊤
    · rw [if_pos hlt] at hchg ⊢
      have hne : v.toNat ≠ cur.toNat := by
        intro he
        rw [he] at hlt
        exact absurd hlt (not_lt.mpr le_self_add)
      set dist' := dist.set v.toNat (dist.getD cur.toNat ⊤ + (w : ℕ∞)) with hd
      have hcur' : dist'.getD cur.toNat ⊤ = dist.getD cur.toNat ⊤ :=
        getD_set_ne _ _ _ _ _ hne
      by_cases hrec : ((relaxPure cur rest dist' (queue ++ [v])).1).getD i ⊤ =
          dist'.getD i ⊤
      · -- the final value of entry i is the one written by this head step
        have hiv : v.toNat = i := by
          by_contra hnvi
          rw [hrec, getD_set_ne _ _ _ _ _ hnvi] at hchg
          exact hchg rfl
        refine ⟨v, w, by simp, hiv, ?_, ?_⟩
        · subst hiv
          by_cases hvlen : v.toNat < dist.length
          · rw [hrec, getD_set_self _ _ _ _ hvlen]
          · exfalso
            rw [hrec] at hchg
            have h1 : dist'.getD v.toNat ⊤ = ⊤ :=
              List.getD_eq_default _ _ (by
                rw [List.length_set]
                exact not_lt.mp hvlen)
            have h2 : dist.getD v.toNat ⊤ = ⊤ :=
              List.getD_eq_default _ _ (not_lt.mp hvlen)
            rw [h1, h2] at hchg
            exact hchg rfl
        · obtain ⟨ext, hq, _⟩ := relaxPure_queue cur rest dist' (queue ++ [v])
          rw [hq]
          simp
      · obtain ⟨v1, w1, hm, hvi, hval, hmemq⟩ := ih dist' (queue ++ [v]) i hrec
        exact ⟨v1, w1, by simp [hm], hvi, by rw [hval, hcur'], hmemq⟩
    · rw [if_neg hlt] at hchg ⊢
      obtain ⟨v1, w1, hm, hvi, hval, hmemq⟩ := ih dist queue i hchg
      exact ⟨v1, w1, by simp [hm], hvi, hval, hmemq⟩

theorem relaxPure_progress (cur : ℤ) :
    ∀ (nbrs : List (ℤ × ℕ)) (dist : List ℕ∞) (queue : List ℤ),
    (∀ p ∈ nbrs, 0 ≤ p.1 ∧ p.1 < (dist.length : ℤ)) →
    relaxPure cur nbrs dist queue = (dist, queue) ∨
      ∃ i, ((relaxPure cur nbrs dist queue).1).getD i ⊤ < dist.getD i ⊤ := by
  intro nbrs
  induction nbrs with
  | nil => intro dist queue _; exact Or.inl rfl
  | cons q rest ih =>
    intro dist queue hrange
    obtain ⟨v, w⟩ := q
    have hv := hrange (v, w) (by simp)
    have hvlen : v.toNat < dist.length := by omega
    rw [relaxPure]
    by_cases hlt : dist.getD cur.toNat ⊤ + (w : ℕ∞) < dist.getD v.toNat ⊤
    · rw [if_pos hlt]
      refine Or.inr ⟨v.toNat, ?_⟩
      refine lt_of_le_of_lt ?_ hlt
      have := relaxPure_le cur rest
        (dist.set v.toNat (dist.getD cur.toNat ⊤ + (w : ℕ∞))) (queue ++ [v]) v.toNat
      rwa [getD_set_self _ _ _ _ hvlen] at this
    · rw [if_neg hlt]
      exact ih dist queue (fun q hq => hrange q (by simp [hq]))

/-! ### Well-foundedness of the loop measure -/

theorem dlt_acc_nil : Acc DLt ([] : List ℕ∞) := by
  constructor
  intro y hy
  obtain ⟨i, hi⟩ := hy.2.2
  have hy0 : y = [] := List.length_eq_zero.mp hy.1
  subst hy0
  exact absurd hi (lt_irrefl _)

theorem dlt_acc_cons (a : ℕ∞) (ha : Acc (fun x y : ℕ∞ => x < y) a) :
    ∀ t : List ℕ∞, Acc DLt t → Acc DLt (a :: t) := by
  induction ha with
  | intro a _ iha =>
    intro t ht
    induction ht with
    | intro t hacct iht =>
      constructor
      intro y hy
      obtain ⟨hlen, hle, i, hlt⟩ := hy
      rcases y with _ | ⟨b, s⟩
      · simp at hlen
      · have hlen' : s.length = t.length := by simpa using hlen
        have hhead : b ≤ a := by
          have := hle 0
          rwa [List.getD_cons_zero, List.getD_cons_zero] at this
        have htail : ∀ j, s.getD j ⊤ ≤ t.getD j ⊤ := by
          intro j
          have := hle (j + 1)
          rwa [List.getD_cons_succ, List.getD_cons_succ] at this
        by_cases hba : b = a
        · subst hba
          have hstrict : ∃ j, s.getD j ⊤ < t.getD j ⊤ := by
            rcases i with _ | j
            · rw [List.getD_cons_zero, List.getD_cons_zero] at hlt
              exact absurd hlt (lt_irrefl _)
            · rw [List.getD_cons_succ, List.getD_cons_succ] at hlt
              exact ⟨j, hlt⟩
          exact iht s ⟨hlen', htail, hstrict⟩
        · have hba' : b < a := lt_of_le_of_ne hhead hba
          have hsacc : Acc DLt s := by
            by_cases hst : s = t
            · subst hst
              exact Acc.intro s hacct
            · refine hacct s ⟨hlen', htail, ?_⟩
              by_contra hno
              push_neg at hno
              exact hst (listExtGetD s t hlen'
                (fun j => le_antisymm (htail j) (hno j)))
          exact iha b hba' s hsacc

theorem dlt_wf : WellFounded DLt := by
  constructor
  intro d
  induction d with
  | nil => exact dlt_acc_nil
  | cons a t ih => exact dlt_acc_cons a (wellFounded_lt.apply a) t ih

theorem bfsRel_wf : WellFounded bfsRel :=
  InvImage.wf _ (WellFounded.prod_lex dlt_wf (wellFounded_lt))

/-! ### The search-loop invariant -/

theorem bfsLoop_nil (adj : ℤ → List (ℤ × ℕ)) (f : ℕ) (dist : List ℕ∞) :
    bfsLoop adj f dist [] = .ok dist := by
  cases f <;> rfl

theorem bfsLoop_cons (adj : ℤ → List (ℤ × ℕ)) (f : ℕ) (dist : List ℕ∞)
    (cur : ℤ) (rest : List ℤ) :
    bfsLoop adj (f + 1) dist (cur :: rest) =
      (relaxNeighbors cur (adj cur) dist rest >>= fun st => bfsLoop adj f st.1 st.2) := rfl

theorem bfsInv_step (adj : ℤ → List (ℤ × ℕ)) (total : ℕ) (s : ℤ)
    (hadj : ∀ i : ℤ, ∀ p ∈ adj i, 0 ≤ p.1 ∧ p.1 < (total : ℤ))
    (dist : List ℕ∞) (cur : ℤ) (rest : List ℤ)
    (hinv : BfsInv adj total s dist (cur :: rest)) :
    BfsInv adj total s (relaxPure cur (adj cur) dist rest).1
        (relaxPure cur (adj cur) dist rest).2 ∧
      bfsRel ((relaxPure cur (adj cur) dist rest).1,
        (relaxPure cur (adj cur) dist rest).2) (dist, cur :: rest) := by
  have hcur : 0 ≤ cur ∧ cur < (total : ℤ) := hinv.qmem cur (by simp)
  have hrange : ∀ p ∈ adj cur, 0 ≤ p.1 ∧ p.1 < (dist.length : ℤ) := by
    intro p hp
    rw [hinv.len]
    exact hadj cur p hp
  set res := relaxPure cur (adj cur) dist rest with hres
  obtain ⟨ext, hqext, hextm⟩ := relaxPure_queue cur (adj cur) dist rest
  constructor
  · refine ⟨?_, ?_, ?_, ?_, ?_⟩
    · rw [relaxPure_length, hinv.len]
    · intro q hq
      rw [hqext] at hq
      rcases List.mem_append.mp hq with h | h
      · exact hinv.qmem q (by simp [h])
      · obtain ⟨w0, hw0⟩ := hextm q h
        exact hadj cur (q, w0) hw0
    · have h1 : res.1.getD s.toNat ⊤ ≤ dist.getD s.toNat ⊤ := relaxPure_le _ _ _ _ _
      rw [hinv.src] at h1
      exact le_antisymm h1 (zero_le _)
    · intro v hv hfin
      by_cases hchg : res.1.getD v ⊤ = dist.getD v ⊤
      · rw [hchg] at hfin ⊢
        exact hinv.sound v hv hfin
      · obtain ⟨vz, w, hm, hvi, hval, _⟩ := relaxPure_changed cur (adj cur) dist rest v hchg
        have hdc : dist.getD cur.toNat ⊤ ≠ ⊤ := by
          intro he
          rw [hval, he, top_add] at hfin
          exact hfin rfl
        have hcurlt : cur.toNat < total := by omega
        obtain ⟨c0, hwalk, hc0⟩ := hinv.sound cur.toNat hcurlt hdc
        have hwalkc : WalkCost adj s cur c0 := by
          rwa [Int.toNat_of_nonneg hcur.1] at hwalk
        have hvz : (vz : ℤ) = (v : ℤ) := by
          have h0 := (hadj cur (vz, w) hm).1
          omega
        refine ⟨c0 + w, ?_, ?_⟩
        · have := WalkCost.step hwalkc hm
          rwa [hvz] at this
        · rw [hres, hval, hc0]
          push_cast
          ring
    · intro u hu0 hu1 v w hm hviol
      by_cases hucur : u = cur
      · exfalso
        subst hucur
        have := relaxPure_relaxed u (adj u) dist rest hrange (v, w) hm
        rw [← hres] at this
        exact absurd hviol (not_lt.mpr this)
      · by_cases hchg : res.1.getD u.toNat ⊤ = dist.getD u.toNat ⊤
        · have hvle : res.1.getD v.toNat ⊤ ≤ dist.getD v.toNat ⊤ := relaxPure_le _ _ _ _ _
          have hold : dist.getD u.toNat ⊤ + (w : ℕ∞) < dist.getD v.toNat ⊤ := by
            rw [← hchg]
            exact lt_of_lt_of_le hviol hvle
          have := hinv.relaxed u hu0 hu1 v w hm hold
          rcases List.mem_cons.mp this with h | h
          · exact absurd h hucur
          · rw [hqext]
            exact List.mem_append.mpr (Or.inl h)
        · obtain ⟨vz, w1, hm1, hvi1, _, hmemq⟩ :=
            relaxPure_changed cur (adj cur) dist rest u.toNat hchg
          have h0 := (hadj cur (vz, w1) hm1).1
          have : vz = u := by omega
          rw [← this]
          exact hmemq
  · rcases relaxPure_progress cur (adj cur) dist rest hrange with heq | ⟨i, hi⟩
    · rw [hres, heq]
      exact Prod.Lex.right dist (by simp)
    · refine Prod.Lex.left _ _ ?_
      exact ⟨by rw [relaxPure_length], fun j => relaxPure_le _ _ _ _ _, i, hi⟩

theorem bfsLoop_correct (adj : ℤ → List (ℤ × ℕ)) (total : ℕ) (s : ℤ)
    (hadj : ∀ i : ℤ, ∀ p ∈ adj i, 0 ≤ p.1 ∧ p.1 < (total : ℤ)) :
    ∀ p : List ℕ∞ × List ℤ, BfsInv adj total s p.1 p.2 →
    ∃ fuel d, (∀ f, fuel ≤ f → bfsLoop adj f p.1 p.2 = .ok d) ∧
      BfsInv adj total s d [] := by
  intro p
  refine bfsRel_wf.induction
    (C := fun q => BfsInv adj total s q.1 q.2 →
      ∃ fuel d, (∀ f, fuel ≤ f → bfsLoop adj f q.1 q.2 = .ok d) ∧
        BfsInv adj total s d []) p ?_
  rintro ⟨dist, queue⟩ ih hinv
  rcases queue with _ | ⟨cur, rest⟩
  · exact ⟨0, dist, fun f _ => bfsLoop_nil adj f dist, hinv⟩
  · obtain ⟨hinv', hdec⟩ := bfsInv_step adj total s hadj dist cur rest hinv
    obtain ⟨fuel, d, hrun, hfin⟩ :=
      ih ((relaxPure cur (adj cur) dist rest).1,
        (relaxPure cur (adj cur) dist rest).2) hdec hinv'
    refine ⟨fuel + 1, d, ?_, hfin⟩
    intro f hf
    obtain ⟨f1, rfl⟩ : ∃ f1, f = f1 + 1 := ⟨f - 1, by omega⟩
    rw [bfsLoop_cons]
    have hcur : 0 ≤ cur ∧ cur < (total : ℤ) := hinv.qmem cur (by simp)
    rw [relaxNeighbors_eq_relaxPure cur (adj cur) dist rest hcur.1
      (by rw [hinv.len]; exact hcur.2)
      (by intro q hq; rw [hinv.len]; exact hadj cur q hq), exceptBindOk]
    exact hrun f1 (by omega)

/-! ### End-to-end correctness of the search -/

theorem walkCost_endpoint (adj : ℤ → List (ℤ × ℕ)) (total : ℕ) (s : ℤ)
    (hadj : ∀ i : ℤ, ∀ p ∈ adj i, 0 ≤ p.1 ∧ p.1 < (total : ℤ))
    (hs0 : 0 ≤ s) (hs1 : s < (total : ℤ)) :
    ∀ {b : ℤ} {c : ℕ}, WalkCost adj s b c → 0 ≤ b ∧ b < (total : ℤ) := by
  intro b c hw
  induction hw with
  | refl => exact ⟨hs0, hs1⟩
  | step _ hm _ => exact hadj _ _ hm

theorem bfsFinal_le_walk (adj : ℤ → List (ℤ × ℕ)) (total : ℕ) (s : ℤ)
    (d : List ℕ∞) (hinv : BfsInv adj total s d [])
    (hadj : ∀ i : ℤ, ∀ p ∈ adj i, 0 ≤ p.1 ∧ p.1 < (total : ℤ))
    (hs0 : 0 ≤ s) (hs1 : s < (total : ℤ)) :
    ∀ {b : ℤ} {c : ℕ}, WalkCost adj s b c → d.getD b.toNat ⊤ ≤ (c : ℕ∞) := by
  intro b c hw
  induction hw with
  | refl =>
    rw [hinv.src]
    exact zero_le _
  | step hwalk hm ihw =>
    rename_i v c1 x w
    have hv := walkCost_endpoint adj total s hadj hs0 hs1 hwalk
    have hnotq : ¬ (d.getD v.toNat ⊤ + (w : ℕ∞) < d.getD x.toNat ⊤) := by
      intro hviol
      exact absurd (hinv.relaxed v hv.1 hv.2 x w hm hviol) (List.not_mem_nil v)
    have h1 : d.getD x.toNat ⊤ ≤ d.getD v.toNat ⊤ + (w : ℕ∞) := not_lt.mp hnotq
    refine le_trans h1 ?_
    have h2 : d.getD v.toNat ⊤ + (w : ℕ∞) ≤ (c1 : ℕ∞) + (w : ℕ∞) :=
      add_le_add_right ihw _
    refine le_trans h2 ?_
    push_cast
    exact le_refl _

theorem bfs_correct (adj : ℤ → List (ℤ × ℕ)) (total : ℕ) (s : ℤ)
    (hadj : ∀ i : ℤ, ∀ p ∈ adj i, 0 ≤ p.1 ∧ p.1 < (total : ℤ))
    (hs0 : 0 ≤ s) (hs1 : s < (total : ℤ)) :
    ∃ fuel d, (∀ f, fuel ≤ f → bfs_shortest_distances adj s total f = .ok d) ∧
      d.length = total ∧ d.getD s.toNat ⊤ = 0 ∧
      ∀ v : ℕ, v < total →
        ((∃ c : ℕ, WalkCost adj s (v : ℤ) c) →
          IsLeast (distSet adj s (v : ℤ)) (d.getD v ⊤)) ∧
        ((¬ ∃ c : ℕ, WalkCost adj s (v : ℤ) c) → d.getD v ⊤ = ⊤) := by
  have hsn : s.toNat < total := by omega
  set d1 := (List.replicate total (⊤ : ℕ∞)).set s.toNat 0 with hd1
  have hlen1 : d1.length = total := by
    rw [hd1, List.length_set, List.length_replicate]
  have hinit : BfsInv adj total s d1 [s] := by
    refine ⟨hlen1, ?_, ?_, ?_, ?_⟩
    · intro q hq
      rcases List.mem_cons.mp hq with h | h
      · exact h ▸ ⟨hs0, hs1⟩
      · exact absurd h (List.not_mem_nil q)
    · rw [hd1]
      exact getD_set_self _ _ _ _ (by rwa [List.length_replicate])
    · intro v hv hfin
      by_cases hvs : v = s.toNat
      · refine ⟨0, ?_, ?_⟩
        · have : (v : ℤ) = s := by omega
          rw [this]
          exact WalkCost.refl s
        · rw [hd1, hvs, getD_set_self _ _ _ _ (by rwa [List.length_replicate, ← hvs])]
          simp
      · exfalso
        rw [hd1, getD_set_ne _ _ _ _ _ (fun h => hvs h.symm),
          getD_replicate _ _ _ _ hv] at hfin
        exact hfin rfl
    · intro u hu0 hu1 v w _ hviol
      by_cases hus : u.toNat = s.toNat
      · have : u = s := by omega
        rw [this]
        exact List.mem_cons_self s []
      · exfalso
        rw [hd1, getD_set_ne _ _ _ _ _ (fun h => hus h.symm),
          getD_replicate _ _ _ _ (by omega), top_add] at hviol
        exact not_top_lt hviol
  obtain ⟨fuel, d, hrun, hfin⟩ := bfsLoop_correct adj total s hadj (d1, [s]) hinit
  refine ⟨fuel, d, ?_, hfin.len, hfin.src, ?_⟩
  · intro f hf
    have hps : pySet (List.replicate total (⊤ : ℕ∞)) s 0 = .ok d1 := by
      rw [pySet_ok _ _ _ hs0 (by rwa [List.length_replicate])]
    show (pySet (List.replicate total (⊤ : ℕ∞)) s 0 >>=
      fun d2 => bfsLoop adj f d2 [s]) = .ok d
    rw [hps, exceptBindOk]
    exact hrun f hf
  · intro v hv
    constructor
    · rintro ⟨c, hw⟩
      have hub : d.getD v ⊤ ≤ (c : ℕ∞) := by
        have := bfsFinal_le_walk adj total s d hfin hadj hs0 hs1 hw
        rwa [Int.toNat_natCast] at this
      have hne : d.getD v ⊤ ≠ ⊤ :=
        ne_top_of_le_ne_top (ENat.coe_lt_top c).ne hub
      obtain ⟨c0, hw0, hval⟩ := hfin.sound v hv hne
      constructor
      · exact ⟨c0, hw0, hval⟩
      · rintro x ⟨c1, hw1, rfl⟩
        have := bfsFinal_le_walk adj total s d hfin hadj hs0 hs1 hw1
        rwa [Int.toNat_natCast] at this
    · intro hnr
      by_contra hne
      obtain ⟨c0, hw0, _⟩ := hfin.sound v hv hne
      exact hnr ⟨c0, hw0⟩

theorem distSet_eq_empty (adj : ℤ → List (ℤ × ℕ)) (s v : ℤ)
    (h : ¬ ∃ c : ℕ, WalkCost adj s v c) : distSet adj s v = ∅ := by
  rw [Set.eq_empty_iff_forall_not_mem]
  rintro x ⟨c, hw, rfl⟩
  exact h ⟨c, hw⟩

theorem bfs_correct_sInf (adj : ℤ → List (ℤ × ℕ)) (total : ℕ) (s : ℤ)
    (hadj : ∀ i : ℤ, ∀ p ∈ adj i, 0 ≤ p.1 ∧ p.1 < (total : ℤ))
    (hs0 : 0 ≤ s) (hs1 : s < (total : ℤ)) :
    ∃ fuel d, (∀ f, fuel ≤ f → bfs_shortest_distances adj s total f = .ok d) ∧
      d.length = total ∧
      ∀ v : ℕ, v < total → d.getD v ⊤ = sInf (distSet adj s (v : ℤ)) := by
  obtain ⟨fuel, d, hrun, hlen, _, hchar⟩ := bfs_correct adj total s hadj hs0 hs1
  refine ⟨fuel, d, hrun, hlen, ?_⟩
  intro v hv
  by_cases hreach : ∃ c : ℕ, WalkCost adj s (v : ℤ) c
  · exact ((hchar v hv).1 hreach).csInf_eq.symm
  · rw [(hchar v hv).2 hreach, distSet_eq_empty adj s (v : ℤ) hreach, sInf_empty]

/-! ### Walk algebra and adjacency symmetry -/

theorem walkCost_trans (adj : ℤ → List (ℤ × ℕ)) {u v x : ℤ} {c c1 : ℕ}
    (h1 : WalkCost adj u v c) (h2 : WalkCost adj v x c1) :
    WalkCost adj u x (c + c1) := by
  induction h2 with
  | refl => exact h1
  | step _ hm ih =>
    rename_i a b y w
    have := WalkCost.step ih hm
    rwa [Nat.add_assoc] at this

theorem walkCost_single (adj : ℤ → List (ℤ × ℕ)) {u x : ℤ} {w : ℕ}
    (hm : (x, w) ∈ adj u) : WalkCost adj u x w := by
  have := WalkCost.step (WalkCost.refl u) hm
  rwa [Nat.zero_add] at this

theorem walkCost_symm (adj : ℤ → List (ℤ × ℕ))
    (hsym : ∀ u v : ℤ, ∀ w : ℕ, (v, w) ∈ adj u → (u, w) ∈ adj v)
    {u v : ℤ} {c : ℕ} (h : WalkCost adj u v c) : WalkCost adj v u c := by
  induction h with
  | refl => exact WalkCost.refl _
  | step hwalk hm ih =>
    rename_i a c1 x w
    have hx : WalkCost adj x a w := walkCost_single adj (hsym a x w hm)
    have := walkCost_trans adj hx ih
    rwa [Nat.add_comm] at this

theorem distSet_symm (adj : ℤ → List (ℤ × ℕ))
    (hsym : ∀ u v : ℤ, ∀ w : ℕ, (v, w) ∈ adj u → (u, w) ∈ adj v)
    (u v : ℤ) : distSet adj u v = distSet adj v u := by
  ext x
  constructor
  · rintro ⟨c, hw, rfl⟩
    exact ⟨c, walkCost_symm adj hsym hw, rfl⟩
  · rintro ⟨c, hw, rfl⟩
    exact ⟨c, walkCost_symm adj hsym hw, rfl⟩

theorem mem_ite_singleton {α : Type} (a x : α) (c : Prop) [Decidable c] :
    a ∈ (if c then [x] else ([] : List α)) ↔ c ∧ a = x := by
  split
  · simp [*]
  · simp [*]

theorem build_adjacency_list_mem (edges : List (ℤ × ℤ × ℕ)) (i : ℤ)
    (p : ℤ × ℕ) :
    p ∈ build_adjacency_list edges i ↔
      ∃ e ∈ edges, (e.1 = i ∧ e.2.1 = p.1 ∧ e.2.2 = p.2) ∨
        (e.2.1 = i ∧ e.1 = p.1 ∧ e.2.2 = p.2) := by
  obtain ⟨p1, p2⟩ := p
  unfold build_adjacency_list
  rw [List.mem_flatMap]
  constructor
  · rintro ⟨e, he, hp⟩
    rcases List.mem_append.mp hp with h | h
    · obtain ⟨hc, hv⟩ := (mem_ite_singleton _ _ _).mp h
      injection hv with h1 h2
      exact ⟨e, he, Or.inl ⟨hc, h1.symm, h2.symm⟩⟩
    · obtain ⟨hc, hv⟩ := (mem_ite_singleton _ _ _).mp h
      injection hv with h1 h2
      exact ⟨e, he, Or.inr ⟨hc, h1.symm, h2.symm⟩⟩
  · rintro ⟨e, he, h | h⟩
    · refine ⟨e, he, List.mem_append.mpr (Or.inl ?_)⟩
      rw [mem_ite_singleton]
      refine ⟨h.1, ?_⟩
      rw [h.2.1, h.2.2]
    · refine ⟨e, he, List.mem_append.mpr (Or.inr ?_)⟩
      rw [mem_ite_singleton]
      refine ⟨h.1, ?_⟩
      rw [h.2.1, h.2.2]

theorem build_adjacency_list_symm (edges : List (ℤ × ℤ × ℕ)) :
    ∀ u v : ℤ, ∀ w : ℕ, (v, w) ∈ build_adjacency_list edges u →
      (u, w) ∈ build_adjacency_list edges v := by
  intro u v w h
  rw [build_adjacency_list_mem] at h ⊢
  obtain ⟨e, he, h | h⟩ := h
  · exact ⟨e, he, Or.inr ⟨h.2.1, h.1, h.2.2⟩⟩
  · exact ⟨e, he, Or.inl ⟨h.2.1, h.1, h.2.2⟩⟩

/-! ### Row-major enumeration lemmas -/

theorem rowMajor_zero {α : Type} (m : ℕ) (f : ℕ → ℕ → α) :
    rowMajor 0 m f = [] := rfl

theorem rowMajor_succ {α : Type} (n m : ℕ) (f : ℕ → ℕ → α) :
    rowMajor (n + 1) m f = rowMajor n m f ++ (List.range m).map (f n) := by
  unfold rowMajor
  rw [List.range_succ, List.flatMap_append]
  simp

theorem rowMajor_length {α : Type} (n m : ℕ) (f : ℕ → ℕ → α) :
    (rowMajor n m f).length = n * m := by
  induction n with
  | zero => simp [rowMajor_zero]
  | succ k ih =>
    rw [rowMajor_succ, List.length_append, ih, List.length_map,
      List.length_range]
    ring

theorem rowMajor_getD {α : Type} (n m : ℕ) (f : ℕ → ℕ → α) (r c : ℕ)
    (d : α) (hr : r < n) (hc : c < m) :
    (rowMajor n m f).getD (r * m + c) d = f r c := by
  induction n with
  | zero => omega
  | succ k ih =>
    rw [rowMajor_succ]
    by_cases hrk : r < k
    · rw [List.getD_append]
      · exact ih hrk
      · rw [rowMajor_length]
        calc r * m + c < r * m + m := by omega
          _ = (r + 1) * m := by ring
          _ ≤ k * m := Nat.mul_le_mul_right m (by omega)
    · have hreq : r = k := by omega
      subst hreq
      rw [List.getD_append_right _ _ _ _ (by rw [rowMajor_length]; omega)]
      rw [rowMajor_length]
      have hidx : r * m + c - r * m = c := by omega
      rw [hidx]
      have hlen : c < ((List.range m).map (f r)).length := by
        rw [List.length_map, List.length_range]
        exact hc
      rw [List.getD_eq_getElem _ _ hlen, List.getElem_map, List.getElem_range]

theorem rowMajor_mem {α : Type} (n m : ℕ) (f : ℕ → ℕ → α) (x : α) :
    x ∈ rowMajor n m f ↔ ∃ r, r < n ∧ ∃ c, c < m ∧ x = f r c := by
  unfold rowMajor
  rw [List.mem_flatMap]
  constructor
  · rintro ⟨r, hr, hx⟩
    obtain ⟨c, hc, hfx⟩ := List.mem_map.mp hx
    exact ⟨r, List.mem_range.mp hr, c, List.mem_range.mp hc, hfx.symm⟩
  · rintro ⟨r, hr, c, hc, rfl⟩
    exact ⟨r, List.mem_range.mpr hr,
      List.mem_map.mpr ⟨c, List.mem_range.mpr hc, rfl⟩⟩

/-! ### Grid graph facts -/

theorem horizontalEdges_endpoints (w h : ℤ) (a : ℕ) (hw : 0 < w) (hh : 0 < h) :
    ∀ e ∈ horizontalEdges w h a,
      (0 ≤ e.1 ∧ e.1 < w * h) ∧ (0 ≤ e.2.1 ∧ e.2.1 < w * h) := by
  intro e he
  obtain ⟨r, hr, c, hc, rfl⟩ := (rowMajor_mem _ _ _ _).mp he
  have hr1 : (r : ℤ) ≤ h - 1 := by omega
  have hc1 : (c : ℤ) ≤ w - 2 := by omega
  have hr0 : (0 : ℤ) ≤ (r : ℤ) := by positivity
  have hc0 : (0 : ℤ) ≤ (c : ℤ) := by positivity
  have hp1 : (r : ℤ) * w ≤ (h - 1) * w := mul_le_mul_of_nonneg_right hr1 hw.le
  have hp0 : (0 : ℤ) ≤ (r : ℤ) * w := mul_nonneg hr0 hw.le
  have hid : (h - 1) * w = h * w - w := by ring
  have hcm : h * w = w * h := mul_comm h w
  refine ⟨⟨by simp only []; linarith, by simp only []; linarith⟩,
    ⟨by simp only []; linarith, by simp only []; linarith⟩⟩

theorem verticalEdges_endpoints (w h : ℤ) (b : ℕ) (hw : 0 < w) (hh : 0 < h) :
    ∀ e ∈ verticalEdges w h b,
      (0 ≤ e.1 ∧ e.1 < w * h) ∧ (0 ≤ e.2.1 ∧ e.2.1 < w * h) := by
  intro e he
  obtain ⟨r, hr, c, hc, rfl⟩ := (rowMajor_mem _ _ _ _).mp he
  have hr1 : (r : ℤ) ≤ h - 2 := by omega
  have hc1 : (c : ℤ) ≤ w - 1 := by omega
  have hr0 : (0 : ℤ) ≤ (r : ℤ) := by positivity
  have hc0 : (0 : ℤ) ≤ (c : ℤ) := by positivity
  have hp1 : (r : ℤ) * w ≤ (h - 2) * w := mul_le_mul_of_nonneg_right hr1 hw.le
  have hp2 : ((r : ℤ) + 1) * w ≤ (h - 1) * w :=
    mul_le_mul_of_nonneg_right (by linarith) hw.le
  have hp0 : (0 : ℤ) ≤ (r : ℤ) * w := mul_nonneg hr0 hw.le
  have hp3 : (0 : ℤ) ≤ ((r : ℤ) + 1) * w := mul_nonneg (by linarith) hw.le
  have hid1 : (h - 2) * w = h * w - 2 * w := by ring
  have hid2 : (h - 1) * w = h * w - w := by ring
  have hcm : h * w = w * h := mul_comm h w
  refine ⟨⟨by simp only []; linarith, by simp only []; linarith⟩,
    ⟨by simp only []; linarith, by simp only []; linarith⟩⟩

theorem create_graph_endpoints (w h : ℤ) (a b : ℕ) (hw : 0 < w) (hh : 0 < h) :
    ∀ e ∈ (create_graph w h a b).1,
      (0 ≤ e.1 ∧ e.1 < w * h) ∧ (0 ≤ e.2.1 ∧ e.2.1 < w * h) := by
  intro e he
  rcases List.mem_append.mp he with h1 | h1
  · exact horizontalEdges_endpoints w h a hw hh e h1
  · exact verticalEdges_endpoints w h b hw hh e h1

theorem build_adj_wf_of_edges (edges : List (ℤ × ℤ × ℕ)) (total : ℕ)
    (hedges : ∀ e ∈ edges,
      (0 ≤ e.1 ∧ e.1 < (total : ℤ)) ∧ (0 ≤ e.2.1 ∧ e.2.1 < (total : ℤ))) :
    ∀ i : ℤ, ∀ p ∈ build_adjacency_list edges i,
      0 ≤ p.1 ∧ p.1 < (total : ℤ) := by
  intro i p hp
  obtain ⟨e, he, hcase⟩ := (build_adjacency_list_mem edges i p).mp hp
  rcases hcase with ⟨_, h1, _⟩ | ⟨_, h1, _⟩
  · exact h1 ▸ (hedges e he).2
  · exact h1 ▸ (hedges e he).1

theorem grid_total_cast (w h : ℤ) (hw : 0 < w) (hh : 0 < h) :
    (((w * h).toNat : ℕ) : ℤ) = w * h :=
  Int.toNat_of_nonneg (mul_nonneg hw.le hh.le)

theorem grid_adj_wf (w h : ℤ) (a b : ℕ) (hw : 0 < w) (hh : 0 < h) :
    ∀ i : ℤ, ∀ p ∈ build_adjacency_list (create_graph w h a b).1 i,
      0 ≤ p.1 ∧ p.1 < (((w * h).toNat : ℕ) : ℤ) := by
  have := build_adj_wf_of_edges (create_graph w h a b).1 (w * h).toNat
  rw [grid_total_cast w h hw hh] at this
  intro i p hp
  rw [grid_total_cast w h hw hh]
  exact this (create_graph_endpoints w h a b hw hh) i p hp

/-! ### Cycle removal: the least walk cost is a least simple-path cost -/

theorem walkVia_ne_nil (adj : ℤ → List (ℤ × ℕ)) {u v : ℤ} {l : List ℤ}
    {c : ℕ} (h : WalkVia adj u v l c) : l ≠ [] := by
  cases h with
  | refl => simp
  | step _ _ => simp

theorem walkCost_of_walkVia (adj : ℤ → List (ℤ × ℕ)) {u v : ℤ}
    {l : List ℤ} {c : ℕ} (h : WalkVia adj u v l c) : WalkCost adj u v c := by
  induction h with
  | refl => exact WalkCost.refl _
  | step _ hm ih => exact WalkCost.step ih hm

theorem walkVia_of_walkCost (adj : ℤ → List (ℤ × ℕ)) {u v : ℤ} {c : ℕ}
    (h : WalkCost adj u v c) : ∃ l, WalkVia adj u v l c := by
  induction h with
  | refl => exact ⟨_, WalkVia.refl _⟩
  | step _ hm ih =>
    obtain ⟨l, hl⟩ := ih
    exact ⟨l ++ [_], WalkVia.step hl hm⟩

theorem walkVia_trans (adj : ℤ → List (ℤ × ℕ)) {x v : ℤ} {lb : List ℤ}
    {cb : ℕ} (h2 : WalkVia adj x v lb cb) :
    ∀ {u : ℤ} {la : List ℤ} {ca : ℕ}, WalkVia adj u x la ca →
    WalkVia adj u v (la ++ lb.tail) (ca + cb) := by
  induction h2 with
  | refl =>
    intro u la ca h1
    simpa using h1
  | step hw hm ih =>
    rename_i v1 l1 c1 y w
    intro u la ca h1
    have hne := walkVia_ne_nil adj hw
    have hstep := WalkVia.step (ih h1) hm
    have hl : (la ++ l1.tail) ++ [y] = la ++ (l1 ++ [y]).tail := by
      rw [List.append_assoc]
      congr 1
      rcases l1 with _ | ⟨a, t⟩
      · exact absurd rfl hne
      · simp
    rw [hl, Nat.add_assoc] at hstep
    exact hstep

theorem walkVia_split (adj : ℤ → List (ℤ × ℕ)) {u v : ℤ} {l : List ℤ}
    {c : ℕ} (h : WalkVia adj u v l c) :
    ∀ (l1 : List ℤ) (x : ℤ) (l2 : List ℤ), l = l1 ++ x :: l2 →
    ∃ c1 c2, c = c1 + c2 ∧ WalkVia adj u x (l1 ++ [x]) c1 ∧
      WalkVia adj x v (x :: l2) c2 := by
  induction h with
  | refl =>
    intro l1 x l2 heq
    rcases l1 with _ | ⟨b, t⟩
    · simp only [List.nil_append] at heq
      injection heq with h1 h2
      subst h1
      subst h2
      exact ⟨0, 0, rfl, by simpa using WalkVia.refl u, WalkVia.refl u⟩
    · rw [List.cons_append] at heq
      injection heq with h1 h2
      exact absurd h2.symm (by simp)
  | step hw hm ih =>
    rename_i v1 l1 c1 y w
    intro la x lb heq
    rcases List.eq_nil_or_concat lb with hb | ⟨lb1, b, rfl⟩
    · subst hb
      have hlen : l1.length = la.length := by
        have := congrArg List.length heq
        simp at this
        omega
      obtain ⟨hA, hB⟩ := List.append_inj heq hlen
      have hxy : y = x := by injection hB with hB1 _
      subst hxy
      subst hA
      exact ⟨c1 + w, 0, rfl, WalkVia.step hw hm, WalkVia.refl y⟩
    · rw [List.concat_eq_append] at heq
      have heq2 : l1 ++ [y] = (la ++ x :: lb1) ++ [b] := by
        rw [heq]
        simp
      have hlen : l1.length = (la ++ x :: lb1).length := by
        have := congrArg List.length heq2
        simp at this ⊢
        omega
      obtain ⟨hA, hB⟩ := List.append_inj heq2 hlen
      have hyb : y = b := by injection hB with hB1 _
      subst hyb
      obtain ⟨d1, d2, hsum, w1, w2⟩ := ih la x lb1 hA
      refine ⟨d1, d2 + w, by omega, w1, ?_⟩
      simpa using WalkVia.step w2 hm

theorem exists_split_of_not_nodup {α : Type} :
    ∀ l : List α, ¬ l.Nodup →
    ∃ (l1 : List α) (x : α) (l2 : List α), l = l1 ++ x :: l2 ∧ x ∈ l2 := by
  intro l
  induction l with
  | nil => intro h; exact absurd List.nodup_nil h
  | cons a t ih =>
    intro h
    by_cases hat : a ∈ t
    · exact ⟨[], a, t, rfl, hat⟩
    · have hnt : ¬ t.Nodup := fun hn => h (List.nodup_cons.mpr ⟨hat, hn⟩)
      obtain ⟨l1, x, l2, heq, hx⟩ := ih hnt
      exact ⟨a :: l1, x, l2, by rw [heq]; rfl, hx⟩

theorem walkVia_shrink (adj : ℤ → List (ℤ × ℕ)) :
    ∀ n : ℕ, ∀ l : List ℤ, l.length ≤ n → ∀ u v : ℤ, ∀ c : ℕ,
    WalkVia adj u v l c →
    ∃ l' c', c' ≤ c ∧ WalkVia adj u v l' c' ∧ l'.Nodup := by
  intro n
  induction n with
  | zero =>
    intro l hl u v c hw
    have hnil : l = [] := List.length_eq_zero.mp (by omega)
    exact absurd hnil (walkVia_ne_nil adj hw)
  | succ k ih =>
    intro l hl u v c hw
    by_cases hnd : l.Nodup
    · exact ⟨l, c, le_refl c, hw, hnd⟩
    · obtain ⟨l1, x, l2, rfl, hx⟩ := exists_split_of_not_nodup l hnd
      obtain ⟨l2a, l2b, rfl⟩ := List.append_of_mem hx
      have heq2 : l1 ++ x :: (l2a ++ x :: l2b) =
          (l1 ++ x :: l2a) ++ x :: l2b := by simp
      obtain ⟨c1, c2, hc, w1, w2⟩ :=
        walkVia_split adj hw (l1 ++ x :: l2a) x l2b heq2
      have heq3 : (l1 ++ x :: l2a) ++ [x] = l1 ++ x :: (l2a ++ [x]) := by simp
      obtain ⟨c11, c12, hc1, w11, _⟩ :=
        walkVia_split adj w1 l1 x (l2a ++ [x]) heq3
      have wnew := walkVia_trans adj w2 w11
      have hlist : (l1 ++ [x]) ++ (x :: l2b).tail = l1 ++ x :: l2b := by simp
      rw [hlist] at wnew
      have hlen : (l1 ++ x :: l2b).length ≤ k := by
        have h0 : (l1 ++ x :: (l2a ++ x :: l2b)).length ≤ k + 1 := hl
        simp at h0 ⊢
        omega
      obtain ⟨l', c', hcle, hw', hnd'⟩ := ih _ hlen u v _ wnew
      exact ⟨l', c', by omega, hw', hnd'⟩

theorem walkCost_to_pathCost (adj : ℤ → List (ℤ × ℕ)) {u v : ℤ} {c : ℕ}
    (h : WalkCost adj u v c) : ∃ c', c' ≤ c ∧ PathCost adj u v c' := by
  obtain ⟨l, hl⟩ := walkVia_of_walkCost adj h
  obtain ⟨l', c', hle, hw', hnd'⟩ :=
    walkVia_shrink adj l.length l (le_refl _) u v c hl
  exact ⟨c', hle, l', hw', hnd'⟩

theorem pathCost_to_walkCost (adj : ℤ → List (ℤ × ℕ)) {u v : ℤ} {c : ℕ}
    (h : PathCost adj u v c) : WalkCost adj u v c := by
  obtain ⟨l, hw, _⟩ := h
  exact walkCost_of_walkVia adj hw

theorem pathReach_iff_walkReach (adj : ℤ → List (ℤ × ℕ)) (s v : ℤ) :
    (∃ c : ℕ, PathCost adj s v c) ↔ ∃ c : ℕ, WalkCost adj s v c := by
  constructor
  · rintro ⟨c, hp⟩
    exact ⟨c, pathCost_to_walkCost adj hp⟩
  · rintro ⟨c, hw⟩
    obtain ⟨c', _, hp⟩ := walkCost_to_pathCost adj hw
    exact ⟨c', hp⟩

theorem isLeast_path_of_isLeast_walk (adj : ℤ → List (ℤ × ℕ)) (s v : ℤ)
    (x : ℕ∞) (h : IsLeast (distSet adj s v) x) :
    IsLeast (pathDistSet adj s v) x := by
  obtain ⟨⟨c, hw, rfl⟩, hlb⟩ := h
  constructor
  · obtain ⟨c', hle, hp⟩ := walkCost_to_pathCost adj hw
    have hmem : ((c' : ℕ∞)) ∈ distSet adj s v :=
      ⟨c', pathCost_to_walkCost adj hp, rfl⟩
    have h1 : (c : ℕ∞) ≤ (c' : ℕ∞) := hlb hmem
    have h2 : c' = c := le_antisymm hle (Nat.cast_le.mp h1)
    exact ⟨c, h2 ▸ hp, rfl⟩
  · rintro y ⟨c', hp, rfl⟩
    exact hlb ⟨c', pathCost_to_walkCost adj hp, rfl⟩

/-! ### Claim theorems -/

/-- C1: for every adjacency index with positive integer edge weights whose
entries all lie in `[0, total)`, and every source in `[0, total)`, the
search terminates and returns a vector of length `total` in which the
source entry is `0`, every reachable vertex gets the minimum path cost
from the source, and every unreachable vertex gets infinity. -/
theorem c1_bfs_shortest_distances_correct (adj : ℤ → List (ℤ × ℕ))
    (total : ℕ) (s : ℤ)
    (hadj : ∀ i : ℤ, ∀ p ∈ adj i, 0 ≤ p.1 ∧ p.1 < (total : ℤ))
    (hpos : ∀ i : ℤ, ∀ p ∈ adj i, 0 < p.2)
    (hs0 : 0 ≤ s) (hs1 : s < (total : ℤ)) : C1Post adj total s := by
  obtain ⟨fuel, d, hrun, hlen, hsrc, hchar⟩ :=
    bfs_correct adj total s hadj hs0 hs1
  refine ⟨fuel, d, hrun, hlen, hsrc, ?_⟩
  intro v hv
  refine ⟨?_, (hchar v hv).2, pathReach_iff_walkReach adj s (v : ℤ)⟩
  intro hreach
  have h1 := (hchar v hv).1 hreach
  exact ⟨h1, isLeast_path_of_isLeast_walk adj s (v : ℤ) _ h1⟩

/-- C1 witness: the empty one-vertex graph satisfies every hypothesis. -/
theorem c1_bfs_shortest_distances_correct_witness :
    ((∀ i : ℤ, ∀ p ∈ (fun _ : ℤ => ([] : List (ℤ × ℕ))) i,
        0 ≤ p.1 ∧ p.1 < ((1 : ℕ) : ℤ)) ∧
      (∀ i : ℤ, ∀ p ∈ (fun _ : ℤ => ([] : List (ℤ × ℕ))) i, 0 < p.2) ∧
      (0 : ℤ) ≤ 0 ∧ (0 : ℤ) < ((1 : ℕ) : ℤ)) ∧
      C1Post (fun _ : ℤ => ([] : List (ℤ × ℕ))) 1 0 :=
  ⟨⟨by simp, by simp, by simp, by simp⟩,
    c1_bfs_shortest_distances_correct (fun _ => []) 1 0 (by simp) (by simp)
      (by simp) (by simp)⟩

/-- C4 counterexample: the source `-1` lies outside `[0, 1)`, yet the
search raises no error: Python's negative indexing accepts it and the run
returns normally (distance vector `[0]`). -/
theorem c4_counterexample_negative_source :
    bfs_shortest_distances (fun _ : ℤ => ([] : List (ℤ × ℕ))) (-1) 1 2 =
      .ok [0] := rfl

/-- C4 amended: the search fails with an `IndexError` exactly when the
source is `≥ total` or `< -total`; the failure happens at the
`distances[start_vertex] = 0` assignment, before the search loop runs
(the result does not depend on the fuel).  Sources in `[-total, 0)` are
accepted by Python negative indexing (see C10). -/
theorem c4_amended_out_of_range_source (adj : ℤ → List (ℤ × ℕ)) (s : ℤ)
    (total fuel : ℕ) (h : s < -(total : ℤ) ∨ (total : ℤ) ≤ s) :
    bfs_shortest_distances adj s total fuel = .error .indexError := by
  show (pySet (List.replicate total (⊤ : ℕ∞)) s 0 >>=
    fun d1 => bfsLoop adj fuel d1 [s]) = .error .indexError
  have hps : pySet (List.replicate total (⊤ : ℕ∞)) s 0 = .error .indexError := by
    unfold pySet
    rw [List.length_replicate, pyIndex_none total s h]
  rw [hps, exceptBindErr]

/-- C4 amended witness. -/
theorem c4_amended_out_of_range_source_witness :
    ((5 : ℤ) < -((1 : ℕ) : ℤ) ∨ ((1 : ℕ) : ℤ) ≤ (5 : ℤ)) ∧
      bfs_shortest_distances (fun _ : ℤ => ([] : List (ℤ × ℕ))) 5 1 3 =
        .error .indexError :=
  ⟨Or.inr (by norm_num),
    c4_amended_out_of_range_source (fun _ => []) 5 1 3 (Or.inr (by norm_num))⟩

/-- C5 counterexample: `create_graph` performs no validation; at
`width = 0` (which is `≤ 0`) it raises no `InvalidDimension` error and
returns normally, with empty edge and vertex lists. -/
theorem c5_counterexample_zero_width :
    create_graph 0 1 2 1 = ([], []) := rfl

/-- C5 amended: `create_graph` has no failure modes at all; it validates
nothing.  For `width ≤ 0` or `height ≤ 0` it returns normally with empty
edge and vertex lists (every `range` in the source is empty), instead of
failing with an `InvalidDimension` error. -/
theorem c5_amended_no_validation (w h : ℤ) (a b : ℕ)
    (hnp : w ≤ 0 ∨ h ≤ 0) : create_graph w h a b = ([], []) := by
  have hhor : (horizontalEdges w h a).length = 0 := by
    rw [horizontalEdges, rowMajor_length]
    rcases hnp with h1 | h1
    · have : (w - 1).toNat = 0 := by omega
      rw [this, Nat.mul_zero]
    · have : h.toNat = 0 := by omega
      rw [this, Nat.zero_mul]
  have hver : (verticalEdges w h b).length = 0 := by
    rw [verticalEdges, rowMajor_length]
    rcases hnp with h1 | h1
    · have : w.toNat = 0 := by omega
      rw [this, Nat.mul_zero]
    · have : (h - 1).toNat = 0 := by omega
      rw [this, Nat.zero_mul]
  have hvert : (gridVertices w h).length = 0 := by
    rw [gridVertices, rowMajor_length]
    rcases hnp with h1 | h1
    · have : w.toNat = 0 := by omega
      rw [this, Nat.mul_zero]
    · have : h.toNat = 0 := by omega
      rw [this, Nat.zero_mul]
  unfold create_graph
  rw [List.length_eq_zero.mp hhor, List.length_eq_zero.mp hver,
    List.length_eq_zero.mp hvert]
  rfl

/-- C5 amended witness. -/
theorem c5_amended_no_validation_witness :
    ((0 : ℤ) ≤ 0 ∨ (1 : ℤ) ≤ 0) ∧ create_graph 0 1 2 1 = ([], []) :=
  ⟨Or.inl le_rfl, c5_amended_no_validation 0 1 2 1 (Or.inl le_rfl)⟩

/-- C8: on the concrete 3x2 grid with horizontal weight 2 and vertical
weight 1, the edges are exactly the seven claimed triples, and the search
from vertex 0 yields distances 4 to vertex 2, 5 to vertex 5, and 1 to
vertex 3 (full vector `[0, 2, 4, 1, 3, 5]`, computed with ample fuel). -/
theorem c8_concrete_grid_scenario :
    (create_graph 3 2 2 1).1 =
      [(0, 1, 2), (1, 2, 2), (3, 4, 2), (4, 5, 2), (0, 3, 1), (1, 4, 1),
        (2, 5, 1)] ∧
    bfs_shortest_distances (build_adjacency_list (create_graph 3 2 2 1).1)
      0 6 10 = .ok [0, 2, 4, 1, 3, 5] ∧
    ([0, 2, 4, 1, 3, 5] : List ℕ∞).getD 2 ⊤ = 4 ∧
    ([0, 2, 4, 1, 3, 5] : List ℕ∞).getD 5 ⊤ = 5 ∧
    ([0, 2, 4, 1, 3, 5] : List ℕ∞).getD 3 ⊤ = 1 :=
  ⟨rfl, rfl, rfl, rfl, rfl⟩

/-- C10: with an adjacency index keyed only by vertices of `[0, total)`
and a negative source `s` with `-total ≤ s < 0`, the search raises no
error: the initial write lands on index `total + s` (Python negative
indexing), the popped source finds no neighbors under its negative key
(`defaultdict` yields `[]`), so the result is `0` at `total + s` and
infinity everywhere else. -/
theorem c10_negative_source_behaviour (total : ℕ) (adj : ℤ → List (ℤ × ℕ))
    (s : ℤ) (htot : 1 ≤ total)
    (hadj : ∀ i : ℤ, i < 0 ∨ (total : ℤ) ≤ i → adj i = [])
    (hs0 : -(total : ℤ) ≤ s) (hs1 : s < 0) (fuel : ℕ) (hfuel : 1 ≤ fuel) :
    ∃ d, bfs_shortest_distances adj s total fuel = .ok d ∧
      d.length = total ∧ d.getD ((total : ℤ) + s).toNat ⊤ = 0 ∧
      ∀ i : ℕ, i < total → i ≠ ((total : ℤ) + s).toNat →
        d.getD i ⊤ = ⊤ := by
  refine ⟨(List.replicate total (⊤ : ℕ∞)).set ((total : ℤ) + s).toNat 0,
    ?_, ?_, ?_, ?_⟩
  · show (pySet (List.replicate total (⊤ : ℕ∞)) s 0 >>=
      fun d1 => bfsLoop adj fuel d1 [s]) = _
    have hps : pySet (List.replicate total (⊤ : ℕ∞)) s 0 =
        .ok ((List.replicate total (⊤ : ℕ∞)).set ((total : ℤ) + s).toNat 0) := by
      unfold pySet
      rw [List.length_replicate, pyIndex_neg total s (by omega) hs1,
        show s + (total : ℤ) = (total : ℤ) + s from add_comm s total]
    rw [hps, exceptBindOk]
    obtain ⟨f1, rfl⟩ : ∃ f1, fuel = f1 + 1 := ⟨fuel - 1, by omega⟩
    rw [bfsLoop_cons, hadj s (Or.inl hs1)]
    rw [show relaxNeighbors s []
        ((List.replicate total (⊤ : ℕ∞)).set ((total : ℤ) + s).toNat 0) [] =
      .ok ((List.replicate total (⊤ : ℕ∞)).set ((total : ℤ) + s).toNat 0, [])
      from rfl, exceptBindOk, bfsLoop_nil]
  · rw [List.length_set, List.length_replicate]
  · refine getD_set_self _ _ _ _ ?_
    rw [List.length_replicate]
    omega
  · intro i hi hne
    rw [getD_set_ne _ _ _ _ _ (fun hh => hne hh.symm),
      getD_replicate _ _ _ _ hi]

/-- C10 witness: two vertices, source `-1`. -/
theorem c10_negative_source_behaviour_witness :
    (1 ≤ 2 ∧
      (∀ i : ℤ, i < 0 ∨ ((2 : ℕ) : ℤ) ≤ i →
        (fun _ : ℤ => ([] : List (ℤ × ℕ))) i = []) ∧
      -((2 : ℕ) : ℤ) ≤ -1 ∧ (-1 : ℤ) < 0 ∧ 1 ≤ 1) ∧
    (∃ d, bfs_shortest_distances (fun _ : ℤ => ([] : List (ℤ × ℕ)))
        (-1) 2 1 = .ok d ∧
      d.length = 2 ∧ d.getD (((2 : ℕ) : ℤ) + -1).toNat ⊤ = 0 ∧
      ∀ i : ℕ, i < 2 → i ≠ (((2 : ℕ) : ℤ) + -1).toNat → d.getD i ⊤ = ⊤) :=
  ⟨⟨by norm_num, fun i _ => rfl, by norm_num, by norm_num, le_rfl⟩,
    c10_negative_source_behaviour 2 (fun _ => []) (-1) (by norm_num)
      (fun i _ => rfl) (by norm_num) (by norm_num) 1 le_rfl⟩

/-- C2: `create_graph` with positive dimensions builds exactly the
claimed row-major vertex list and the claimed horizontal-then-vertical
edge blocks, deterministically. -/
theorem c2_create_graph_structure (w h : ℤ) (a b : ℕ)
    (hw : 0 < w) (hh : 0 < h) : CreateGraphSpec w h a b := by
  have hcast1 : ((h.toNat * w.toNat : ℕ) : ℤ) = w * h := by
    push_cast [Int.toNat_of_nonneg hw.le, Int.toNat_of_nonneg hh.le]
    ring
  have hcast2 : ((h.toNat * (w - 1).toNat : ℕ) : ℤ) = h * (w - 1) := by
    push_cast [Int.toNat_of_nonneg hh.le, Int.toNat_of_nonneg (by omega : (0:ℤ) ≤ w - 1)]
    ring
  have hcast3 : (((h - 1).toNat * w.toNat : ℕ) : ℤ) = (h - 1) * w := by
    push_cast [Int.toNat_of_nonneg hw.le, Int.toNat_of_nonneg (by omega : (0:ℤ) ≤ h - 1)]
    ring
  refine ⟨?_, ?_, rfl, ?_, ?_, ?_, ?_, ?_, ?_, rfl⟩
  · show (gridVertices w h).length = (w * h).toNat
    rw [gridVertices, rowMajor_length, ← Int.toNat_natCast (h.toNat * w.toNat),
      hcast1]
  · intro r c hr hc
    exact rowMajor_getD h.toNat w.toNat _ r c _ hr hc
  · rw [horizontalEdges, rowMajor_length, ← Int.toNat_natCast
      (h.toNat * (w - 1).toNat), hcast2]
  · rw [verticalEdges, rowMajor_length, ← Int.toNat_natCast
      ((h - 1).toNat * w.toNat), hcast3]
  · intro e he
    obtain ⟨r, _, c, _, rfl⟩ := (rowMajor_mem _ _ _ _).mp he
    rfl
  · intro e he
    obtain ⟨r, _, c, _, rfl⟩ := (rowMajor_mem _ _ _ _).mp he
    rfl
  · intro r c hr hc
    exact rowMajor_getD h.toNat (w - 1).toNat _ r c _ hr hc
  · intro r c hr hc
    exact rowMajor_getD (h - 1).toNat w.toNat _ r c _ hr hc

/-- C2 witness at the 3x2 grid. -/
theorem c2_create_graph_structure_witness :
    ((0 : ℤ) < 3 ∧ (0 : ℤ) < 2) ∧ CreateGraphSpec 3 2 2 1 :=
  ⟨⟨by norm_num, by norm_num⟩,
    c2_create_graph_structure 3 2 2 1 (by norm_num) (by norm_num)⟩

/-! ### Sampler lemmas -/

theorem genPairsAux_succ (rng : ℕ → ℕ) (total : ℤ) (fuel n pos : ℕ) :
    genPairsAux rng total fuel (n + 1) pos = (do
      let s ← randint0 rng pos (total - 1)
      let ep ← drawEndLoop rng (total - 1) s (pos + 1) fuel
      let rest ← genPairsAux rng total fuel n ep.2
      pure ((s, ep.1) :: rest)) := rfl

theorem drawEndLoop_succ (rng : ℕ → ℕ) (hi : ℤ) (start pos k : ℕ) :
    drawEndLoop rng hi start pos (k + 1) = (do
      let e ← randint0 rng pos hi
      if e = start then drawEndLoop rng hi start (pos + 1) k
      else .ok (e, pos + 1)) := rfl

theorem randint0_neg (rng : ℕ → ℕ) (pos : ℕ) (hi : ℤ) (h : hi < 0) :
    randint0 rng pos hi = .error .valueError := by
  unfold randint0
  rw [if_pos h]

theorem randint0_zero (rng : ℕ → ℕ) (pos : ℕ) :
    randint0 rng pos 0 = .ok 0 := by
  unfold randint0
  rw [if_neg (by omega)]
  simp [Nat.mod_one]

theorem drawEndLoop_stuck (rng : ℕ → ℕ) :
    ∀ fuel pos, drawEndLoop rng 0 0 pos fuel = .error .outOfFuel := by
  intro fuel
  induction fuel with
  | zero => intro pos; rfl
  | succ k ih =>
    intro pos
    rw [drawEndLoop_succ, randint0_zero, exceptBindOk, if_pos rfl]
    exact ih (pos + 1)

/-- C6 counterexample: at bound 1 with zero requested pairs the sampler
returns the empty list without any error, refuting "fails with
InvalidBound whenever the bound is ≤ 1". -/
theorem c6_counterexample_bound_one_n_zero :
    generate_random_point_pairs 0 1 (fun _ => 0) 1 = .ok [] := rfl

/-- C6 amended: the sampler has no bound validation.  With `bound ≤ 0`
and `n ≥ 1` the first `randint` raises `ValueError` (empty range); with
`bound = 1` and `n ≥ 1` the end-vertex redraw loop never terminates (no
fuel suffices), rather than raising; with `n = 0` it returns the empty
list for every bound. -/
theorem c6_amended_sampler_bounds (total : ℤ) (n : ℕ) (rng : ℕ → ℕ)
    (fuel : ℕ) :
    (total ≤ 0 → 1 ≤ n →
      generate_random_point_pairs n total rng fuel = .error .valueError) ∧
    (total = 1 → 1 ≤ n →
      generate_random_point_pairs n total rng fuel = .error .outOfFuel) ∧
    (n = 0 → generate_random_point_pairs n total rng fuel = .ok []) := by
  refine ⟨?_, ?_, ?_⟩
  · intro htot hn
    obtain ⟨m, rfl⟩ : ∃ m, n = m + 1 := ⟨n - 1, by omega⟩
    unfold generate_random_point_pairs
    rw [genPairsAux_succ, randint0_neg rng 0 (total - 1) (by omega),
      exceptBindErr]
  · intro htot hn
    subst htot
    obtain ⟨m, rfl⟩ : ∃ m, n = m + 1 := ⟨n - 1, by omega⟩
    unfold generate_random_point_pairs
    rw [genPairsAux_succ, show (1 : ℤ) - 1 = 0 by norm_num,
      randint0_zero, exceptBindOk]
    show (drawEndLoop rng 0 0 1 fuel >>= _) = _
    rw [drawEndLoop_stuck rng fuel 1, exceptBindErr]
  · intro hn
    subst hn
    rfl

/-- C6 amended witness: bound 1 with one requested pair exhausts any
fuel. -/
theorem c6_amended_sampler_bounds_witness :
    generate_random_point_pairs 1 1 (fun _ => 0) 3 = .error .outOfFuel :=
  (c6_amended_sampler_bounds 1 1 (fun _ => 0) 3).2.1 rfl le_rfl

theorem policyEndLoop_succ (rng : ℕ → ℕ) (bound : ℤ) (start pos k : ℕ) :
    policyEndLoop rng bound start pos (k + 1) =
      if rng pos % bound.toNat = start then
        policyEndLoop rng bound start (pos + 1) k
      else .ok (rng pos % bound.toNat, pos + 1) := rfl

theorem samplerDrawPolicy_succ (rng : ℕ → ℕ) (bound : ℤ) (fuel n pos : ℕ) :
    samplerDrawPolicy rng bound fuel (n + 1) pos = (do
      let ep ← policyEndLoop rng bound (rng pos % bound.toNat) (pos + 1) fuel
      let rest ← samplerDrawPolicy rng bound fuel n ep.2
      pure ((rng pos % bound.toNat, ep.1) :: rest)) := rfl

theorem randint0_pos_bound (rng : ℕ → ℕ) (pos : ℕ) (bound : ℤ)
    (hb : 1 ≤ bound) :
    randint0 rng pos (bound - 1) = .ok (rng pos % bound.toNat) := by
  unfold randint0
  rw [if_neg (by omega), show (bound - 1).toNat + 1 = bound.toNat by omega]

theorem drawEndLoop_eq_policy (rng : ℕ → ℕ) (bound : ℤ) (start : ℕ)
    (hb : 1 ≤ bound) :
    ∀ fuel pos, drawEndLoop rng (bound - 1) start pos fuel =
      policyEndLoop rng bound start pos fuel := by
  intro fuel
  induction fuel with
  | zero => intro pos; rfl
  | succ k ih =>
    intro pos
    rw [drawEndLoop_succ, randint0_pos_bound rng pos bound hb, exceptBindOk,
      policyEndLoop_succ]
    by_cases he : rng pos % bound.toNat = start
    · rw [if_pos he, if_pos he]
      exact ih (pos + 1)
    · rw [if_neg he, if_neg he]

theorem genPairsAux_eq_policy (rng : ℕ → ℕ) (bound : ℤ) (fuel : ℕ)
    (hb : 1 ≤ bound) :
    ∀ n pos, genPairsAux rng bound fuel n pos =
      samplerDrawPolicy rng bound fuel n pos := by
  intro n
  induction n with
  | zero => intro pos; rfl
  | succ k ih =>
    intro pos
    rw [genPairsAux_succ, randint0_pos_bound rng pos bound hb, exceptBindOk,
      samplerDrawPolicy_succ, drawEndLoop_eq_policy rng bound _ hb]
    rcases hE : policyEndLoop rng bound (rng pos % bound.toNat) (pos + 1) fuel
      with e | ep
    · rw [exceptBindErr, exceptBindErr]
    · rw [exceptBindOk, exceptBindOk, ih ep.2]

theorem randint0_congr (rng1 rng2 : ℕ → ℕ) (hr : ∀ i, rng1 i = rng2 i)
    (pos : ℕ) (hi : ℤ) : randint0 rng1 pos hi = randint0 rng2 pos hi := by
  unfold randint0
  rw [hr pos]

theorem drawEndLoop_congr (rng1 rng2 : ℕ → ℕ) (hr : ∀ i, rng1 i = rng2 i)
    (hi : ℤ) (start : ℕ) :
    ∀ fuel pos, drawEndLoop rng1 hi start pos fuel =
      drawEndLoop rng2 hi start pos fuel := by
  intro fuel
  induction fuel with
  | zero => intro pos; rfl
  | succ k ih =>
    intro pos
    rw [drawEndLoop_succ, drawEndLoop_succ, randint0_congr rng1 rng2 hr]
    rcases hE : randint0 rng2 pos hi with e | v
    · rw [exceptBindErr, exceptBindErr]
    · rw [exceptBindOk, exceptBindOk]
      by_cases hv : v = start
      · rw [if_pos hv, if_pos hv]
        exact ih (pos + 1)
      · rw [if_neg hv, if_neg hv]

theorem genPairsAux_congr (rng1 rng2 : ℕ → ℕ) (hr : ∀ i, rng1 i = rng2 i)
    (total : ℤ) (fuel : ℕ) :
    ∀ n pos, genPairsAux rng1 total fuel n pos =
      genPairsAux rng2 total fuel n pos := by
  intro n
  induction n with
  | zero => intro pos; rfl
  | succ k ih =>
    intro pos
    rw [genPairsAux_succ, genPairsAux_succ,
      randint0_congr rng1 rng2 hr pos (total - 1)]
    rcases hS : randint0 rng2 pos (total - 1) with e | s
    · rw [exceptBindErr, exceptBindErr]
    · rw [exceptBindOk, exceptBindOk,
        drawEndLoop_congr rng1 rng2 hr (total - 1) s fuel (pos + 1)]
      rcases hE : drawEndLoop rng2 (total - 1) s (pos + 1) fuel with e | ep
      · rw [exceptBindErr, exceptBindErr]
      · rw [exceptBindOk, exceptBindOk, ih ep.2]

/-- C9: the sampler is a deterministic function of the seeded stream —
two runs on streams that agree everywhere (i.e. two runs seeded with the
same seed) return the same pair list for the same `n` and bound — and for
any usable bound it follows exactly the draw-sequence policy: draw start,
draw end, redraw the end while it equals the start, repeated per pair in
order. -/
theorem c9_sampler_determinism_and_policy (n : ℕ) (bound : ℤ) (fuel : ℕ)
    (rng1 rng2 : ℕ → ℕ) (hr : ∀ i, rng1 i = rng2 i) :
    generate_random_point_pairs n bound rng1 fuel =
      generate_random_point_pairs n bound rng2 fuel ∧
    (1 ≤ bound → generate_random_point_pairs n bound rng1 fuel =
      samplerDrawPolicy rng1 bound fuel n 0) := by
  constructor
  · exact genPairsAux_congr rng1 rng2 hr bound fuel n 0
  · intro hb
    exact genPairsAux_eq_policy rng1 bound fuel hb n 0

/-- C9 witness. -/
theorem c9_sampler_determinism_and_policy_witness :
    (∀ i : ℕ, (fun j : ℕ => j) i = (fun j : ℕ => j) i) ∧
    (generate_random_point_pairs 2 3 (fun j : ℕ => j) 5 =
      generate_random_point_pairs 2 3 (fun j : ℕ => j) 5 ∧
    ((1 : ℤ) ≤ 3 → generate_random_point_pairs 2 3 (fun j : ℕ => j) 5 =
      samplerDrawPolicy (fun j : ℕ => j) 3 5 2 0)) :=
  ⟨fun _ => rfl,
    c9_sampler_determinism_and_policy 2 3 5 (fun j => j) (fun j => j)
      (fun _ => rfl)⟩

/-! ### Aggregator lemmas -/

theorem pairColumns_cons (adj : ℤ → List (ℤ × ℕ)) (total fuel : ℕ)
    (p : ℤ × ℤ) (rest : List (ℤ × ℤ)) :
    pairColumns adj total fuel (p :: rest) = (do
      let ds ← bfs_shortest_distances adj p.1 total fuel
      let de ← bfs_shortest_distances adj p.2 total fuel
      let others ← pairColumns adj total fuel rest
      pure ((ds, de) :: others)) := rfl

theorem calculate_eq (pairs : List (ℤ × ℤ)) (edges : List (ℤ × ℤ × ℕ))
    (total fuel : ℕ) :
    calculate_distances_to_all_vertices pairs edges total fuel = (do
      let cols ← pairColumns (build_adjacency_list edges) total fuel pairs
      pure ((List.range total).map fun i =>
        cols.map fun c => (c.1.getD i ⊤, c.2.getD i ⊤))) := rfl

theorem pairColumns_correct (adj : ℤ → List (ℤ × ℕ)) (total : ℕ)
    (hadjwf : ∀ i : ℤ, ∀ p ∈ adj i, 0 ≤ p.1 ∧ p.1 < (total : ℤ)) :
    ∀ pairs : List (ℤ × ℤ),
    (∀ p ∈ pairs, (0 ≤ p.1 ∧ p.1 < (total : ℤ)) ∧
      (0 ≤ p.2 ∧ p.2 < (total : ℤ))) →
    ∃ fuel cols, (∀ f, fuel ≤ f → pairColumns adj total f pairs = .ok cols) ∧
      cols.length = pairs.length ∧
      ∀ j : ℕ, j < pairs.length → ∀ i : ℕ, i < total →
        (cols.getD j ([], [])).1.getD i ⊤ =
          sInf (distSet adj (pairs.getD j (0, 0)).1 (i : ℤ)) ∧
        (cols.getD j ([], [])).2.getD i ⊤ =
          sInf (distSet adj (pairs.getD j (0, 0)).2 (i : ℤ)) := by
  intro pairs
  induction pairs with
  | nil =>
    intro _
    exact ⟨0, [], fun f _ => rfl, rfl, fun j hj => absurd hj (by simp)⟩
  | cons p rest ih =>
    intro hmem
    have hp := hmem p (by simp)
    obtain ⟨f1, d1, hrun1, _, hchar1⟩ :=
      bfs_correct_sInf adj total p.1 hadjwf hp.1.1 hp.1.2
    obtain ⟨f2, d2, hrun2, _, hchar2⟩ :=
      bfs_correct_sInf adj total p.2 hadjwf hp.2.1 hp.2.2
    obtain ⟨f3, cols, hrun3, hlen3, hchar3⟩ :=
      ih (fun q hq => hmem q (by simp [hq]))
    refine ⟨max f1 (max f2 f3), (d1, d2) :: cols, ?_, by simp [hlen3], ?_⟩
    · intro f hf
      rw [pairColumns_cons, hrun1 f (by omega), exceptBindOk,
        hrun2 f (by omega), exceptBindOk, hrun3 f (by omega), exceptBindOk]
      rfl
    · intro j hj i hi
      cases j with
      | zero =>
        rw [List.getD_cons_zero, List.getD_cons_zero]
        exact ⟨hchar1 i hi, hchar2 i hi⟩
      | succ k =>
        rw [List.getD_cons_succ, List.getD_cons_succ]
        exact hchar3 k (by simpa using hj) i hi

/-- C3: for every pair list (the empty list included) over a graph whose
edges stay inside `[0, total)`, the aggregator terminates and returns a
`total x pairs.length` matrix whose cell `(i, j)` holds the tuple of
shortest distances from pair `j`'s start and end to vertex `i`, columns
in input-pair order. -/
theorem c3_calculate_distances_matrix (pairs : List (ℤ × ℤ))
    (edges : List (ℤ × ℤ × ℕ)) (total : ℕ)
    (hedges : ∀ e ∈ edges,
      (0 ≤ e.1 ∧ e.1 < (total : ℤ)) ∧ (0 ≤ e.2.1 ∧ e.2.1 < (total : ℤ)))
    (hpairs : ∀ p ∈ pairs, (0 ≤ p.1 ∧ p.1 < (total : ℤ)) ∧
      (0 ≤ p.2 ∧ p.2 < (total : ℤ))) : C3Post pairs edges total := by
  have hadjwf := build_adj_wf_of_edges edges total hedges
  obtain ⟨fuel, cols, hrun, hlen, hchar⟩ :=
    pairColumns_correct (build_adjacency_list edges) total hadjwf pairs hpairs
  refine ⟨fuel,
    (List.range total).map fun i =>
      cols.map fun c => (c.1.getD i ⊤, c.2.getD i ⊤), ?_, by simp, ?_, ?_⟩
  · intro f hf
    rw [calculate_eq, hrun f hf, exceptBindOk]
    rfl
  · intro row hrow
    obtain ⟨i, _, rfl⟩ := List.mem_map.mp hrow
    simp [hlen]
  · intro i j hi hj
    have hm : ((List.range total).map fun i =>
        cols.map fun c => (c.1.getD i ⊤, c.2.getD i ⊤)).getD i [] =
        cols.map fun c => (c.1.getD i ⊤, c.2.getD i ⊤) := by
      rw [List.getD_eq_getElem _ _ (by simpa using hi), List.getElem_map,
        List.getElem_range]
    rw [hm]
    have hjc : j < cols.length := by omega
    rw [List.getD_eq_getElem _ _ (by simpa using hjc), List.getElem_map]
    have hcell := hchar j hj i hi
    rw [List.getD_eq_getElem _ _ hjc] at hcell
    rw [Prod.mk.injEq]
    exact ⟨hcell.1, hcell.2⟩

/-- C3 witness: one pair on a one-vertex edgeless graph. -/
theorem c3_calculate_distances_matrix_witness :
    ((∀ e ∈ ([] : List (ℤ × ℤ × ℕ)),
        (0 ≤ e.1 ∧ e.1 < ((1 : ℕ) : ℤ)) ∧
          (0 ≤ e.2.1 ∧ e.2.1 < ((1 : ℕ) : ℤ))) ∧
      (∀ p ∈ [((0 : ℤ), (0 : ℤ))],
        (0 ≤ p.1 ∧ p.1 < ((1 : ℕ) : ℤ)) ∧
          (0 ≤ p.2 ∧ p.2 < ((1 : ℕ) : ℤ)))) ∧
    C3Post [((0 : ℤ), (0 : ℤ))] [] 1 :=
  ⟨⟨by simp, by intro p hp; simp at hp; subst hp; norm_num⟩,
    c3_calculate_distances_matrix [((0 : ℤ), (0 : ℤ))] [] 1 (by simp)
      (by intro p hp; simp at hp; subst hp; norm_num)⟩

/-- C7: on every grid built by `create_graph` with positive parameters,
the searched distance is symmetric: the vector computed from source `u`,
read at `v`, equals the vector computed from source `v`, read at `u`. -/
theorem c7_grid_distance_symmetry (w h : ℤ) (a b : ℕ) (hw : 0 < w)
    (hh : 0 < h) (ha : 0 < a) (hb : 0 < b) (u v : ℕ)
    (hu : u < (w * h).toNat) (hv : v < (w * h).toNat) :
    ∃ fuel du dv,
      (∀ f, fuel ≤ f → bfs_shortest_distances
        (build_adjacency_list (create_graph w h a b).1) (u : ℤ)
        (w * h).toNat f = .ok du) ∧
      (∀ f, fuel ≤ f → bfs_shortest_distances
        (build_adjacency_list (create_graph w h a b).1) (v : ℤ)
        (w * h).toNat f = .ok dv) ∧
      du.getD v ⊤ = dv.getD u ⊤ := by
  have hadjwf := grid_adj_wf w h a b hw hh
  obtain ⟨f1, du, hrun1, _, hchar1⟩ := bfs_correct_sInf
    (build_adjacency_list (create_graph w h a b).1) (w * h).toNat (u : ℤ)
    hadjwf (by positivity) (Nat.cast_lt.mpr hu)
  obtain ⟨f2, dv, hrun2, _, hchar2⟩ := bfs_correct_sInf
    (build_adjacency_list (create_graph w h a b).1) (w * h).toNat (v : ℤ)
    hadjwf (by positivity) (Nat.cast_lt.mpr hv)
  refine ⟨max f1 f2, du, dv, fun f hf => hrun1 f (by omega),
    fun f hf => hrun2 f (by omega), ?_⟩
  rw [hchar1 v hv, hchar2 u hu,
    distSet_symm _ (build_adjacency_list_symm _) (u : ℤ) (v : ℤ)]

/-- C7 witness: the 1x1 grid. -/
theorem c7_grid_distance_symmetry_witness :
    (((0 : ℤ) < 1 ∧ (0 : ℤ) < 1 ∧ 0 < 1 ∧ 0 < 1) ∧
      0 < ((1 : ℤ) * 1).toNat ∧ 0 < ((1 : ℤ) * 1).toNat) ∧
    (∃ fuel du dv,
      (∀ f, fuel ≤ f → bfs_shortest_distances
        (build_adjacency_list (create_graph 1 1 1 1).1) ((0 : ℕ) : ℤ)
        ((1 : ℤ) * 1).toNat f = .ok du) ∧
      (∀ f, fuel ≤ f → bfs_shortest_distances
        (build_adjacency_list (create_graph 1 1 1 1).1) ((0 : ℕ) : ℤ)
        ((1 : ℤ) * 1).toNat f = .ok dv) ∧
      du.getD 0 ⊤ = dv.getD 0 ⊤) :=
  ⟨⟨⟨by norm_num, by norm_num, by norm_num, by norm_num⟩,
      by norm_num, by norm_num⟩,
    c7_grid_distance_symmetry 1 1 1 1 (by norm_num) (by norm_num)
      (by norm_num) (by norm_num) 0 0 (by norm_num) (by norm_num)⟩
